import Mathlib

/-!
Verification development for the error-diagnostics subsystem of the Fastly
CLI (package `errors`): the entry store (`Add` / `AddWithContext`), the
persister (`Persist`, with size-based log rotation and a fixed text
template), the telemetry forwarder (`instrument`) and the token redactor
(`FilterToken`).

Modelling conventions:
  * Go `error` values are `Option String` (the rendered message); `none` is
    the nil interface value.
  * Go `map[string]any` values are association lists `List (String × GoVal)`
    with `GoVal` covering the value kinds the package manipulates (strings,
    ints, bools).  Go's `text/template` iterates map keys in ascending
    order, which the model makes explicit through `sortPairs`.
  * Timestamps are abstracted as their rendered text.
  * File-system state is the optional content of the log file; the model
    assumes the I/O primitives succeed (open/stat/write failures are
    surfaced errors in Go and are outside the claims considered here).
  * `runtime.Caller` is an environmental input and is passed to
    `createLogEntry` as an optional `(file, line)` pair.
  * Go strings are modelled as `List Char` for the redaction passes; the
    two regexes `Token ([\w-]+)` and `(-t|--token)(\s*=?\s*['"]?)([\w-]+)(['"]?)`
    are encoded as explicit leftmost/greedy matchers (`hm1`, `hm2`), and
    `ReplaceAllString` as the scanner `scan`.
-/

namespace Fastly

/-- Kinds of Go `any` values stored in caller/context maps. -/
inductive GoVal where
  | str (s : String)
  | int (n : Int)
  | bool (b : Bool)
deriving DecidableEq

/-- Rendering of a `GoVal` by `fmt`/`text/template`. -/
def renderVal : GoVal → String
  | GoVal.str s => s
  | GoVal.int n => toString n
  | GoVal.bool b => if b then "true" else "false"

/-- LogEntry (source lines 250-256): Time, Err, Caller, Context.
`context = none` models a nil map (entry recorded through `Add`). -/
structure LogEntry where
  time : String
  err : Option String
  caller : List (String × GoVal)
  context : Option (List (String × GoVal))
deriving DecidableEq

/-- The context key consulted by the forwarder (source line 27). -/
def AllowInstrumentation : String := "AllowInstrumentation"

/-- Rotation threshold (source line 285): 5242880 bytes (5 MiB). -/
def FileRotationSize : Nat := 5242880

/-- Go `strings.Index(hay, needle)`: position of the first occurrence. -/
def findSub : List Char → List Char → Option Nat
  | [], n => if n = [] then some 0 else none
  | c :: rest, n =>
    if (c :: rest).take n.length = n then some 0
    else (findSub rest n).map (· + 1)

/-- Caller-path truncation in `createLogEntry` (source lines 237-240):
`idx := strings.Index(file, "/pkg/"); if idx == -1 { idx = 0 }; file[idx:]`. -/
def stripToPkg (file : String) : String :=
  match findSub file.data "/pkg/".data with
  | some i => String.mk (file.data.drop i)
  | none => file

/-- createLogEntry (source lines 229-248).  The stack-inspection result is
injected as `ci`; `none` models `runtime.Caller` failure, in which case the
Caller map stays nil. -/
def createLogEntry (now : String) (ci : Option (String × Int)) (err : Option String) :
    LogEntry :=
  { time := now
    err := err
    caller :=
      match ci with
      | some (file, line) => [("FILE", GoVal.str (stripToPkg file)), ("LINE", GoVal.int line)]
      | none => []
    context := none }

/-- Add (source lines 68-72): append a context-free entry. -/
def Add (l : List LogEntry) (now : String) (ci : Option (String × Int))
    (err : Option String) : List LogEntry :=
  l ++ [createLogEntry now ci err]

/-- AddWithContext (source lines 75-82): append an entry carrying the
caller-supplied context map (`none` models a nil map argument). -/
def AddWithContext (l : List LogEntry) (now : String) (ci : Option (String × Int))
    (err : Option String) (ctx : Option (List (String × GoVal))) : List LogEntry :=
  l ++ [{ createLogEntry now ci err with context := ctx }]

/-- One recording call against the store. -/
inductive RecOp where
  | add (now : String) (ci : Option (String × Int)) (err : Option String)
  | addWithContext (now : String) (ci : Option (String × Int)) (err : Option String)
      (ctx : Option (List (String × GoVal)))

/-- Apply one recording call. -/
def applyOp (l : List LogEntry) : RecOp → List LogEntry
  | RecOp.add now ci err => Add l now ci err
  | RecOp.addWithContext now ci err ctx => AddWithContext l now ci err ctx

/-- Run a sequence of recording calls against the initially empty store. -/
def runOps (ops : List RecOp) : List LogEntry :=
  ops.foldl applyOp []

/-- The entry a single recording call constructs. -/
def opEntry : RecOp → LogEntry
  | RecOp.add now ci err => createLogEntry now ci err
  | RecOp.addWithContext now ci err ctx => { createLogEntry now ci err with context := ctx }

/-- The error argument of a recording call. -/
def opErr : RecOp → Option String
  | RecOp.add _ _ err => err
  | RecOp.addWithContext _ _ err _ => err

/-- Lexicographic order on char lists (Go byte-wise string `<`/`<=`). -/
def lexLe : List Char → List Char → Bool
  | [], _ => true
  | _ :: _, [] => false
  | a :: as, b :: bs => if a = b then lexLe as bs else decide (a < b)

/-- Byte-wise string order used by Go's sorted map iteration. -/
def keyLe (a b : String) : Bool := lexLe a.data b.data

/-- Order on map pairs by key. -/
def pairLe (a b : String × GoVal) : Prop := keyLe a.1 b.1 = true

instance : DecidableRel pairLe := fun a b =>
  inferInstanceAs (Decidable (keyLe a.1 b.1 = true))

/-- Go's `text/template` visits map keys in increasing order; `sortPairs`
is that iteration order for a map given as an association list. -/
def sortPairs (m : List (String × GoVal)) : List (String × GoVal) :=
  m.insertionSort pairLe

/-- Rendering of `{{.Err}}`: `fmt` prints a nil error as `<nil>`. -/
def renderErr : Option String → String
  | some msg => msg
  | none => "<nil>"

/-- One rendered record (the template at source lines 135-147): literal
text interleaved with the two sorted map ranges. -/
def renderRecord (e : LogEntry) : String :=
  "TIMESTAMP:\n" ++ e.time ++ "\n\nERROR:\n" ++ renderErr e.err ++ "\n" ++
  String.join ((sortPairs e.caller).map
    (fun kv => "\n" ++ kv.1 ++ ":\n" ++ renderVal kv.2 ++ "\n")) ++
  "\n" ++
  String.join ((sortPairs ((e.context).getD [])).map
    (fun kv => "\n  " ++ kv.1 ++ ": " ++ renderVal kv.2 ++ "\n")) ++
  "\n"

/-- Eligibility chain of the forwarder loop (source lines 186-193): skip on
nil context; skip when the key is absent; skip when the value is boolean
`false` (`ok && !allow`).  Any other present value falls through. -/
def instrumentEligible (e : LogEntry) : Bool :=
  match e.context with
  | none => false
  | some m =>
    match m.lookup AllowInstrumentation with
    | none => false
    | some v =>
      match v with
      | GoVal.bool b => b
      | _ => true

/-- A Sentry breadcrumb as populated by this package. -/
structure Breadcrumb where
  category : String
  message : String
  btype : String
  timestamp : String
  data : Option (List (String × GoVal))
deriving DecidableEq

/-- `entry.Caller["FILE"]` with best-effort string assertion (lines 199-201). -/
def callerFile (e : LogEntry) : String :=
  match e.caller.lookup "FILE" with
  | some (GoVal.str s) => s
  | _ => ""

/-- `entry.Caller["LINE"]` with best-effort int assertion (lines 202-204). -/
def callerLine (e : LogEntry) : Int :=
  match e.caller.lookup "LINE" with
  | some (GoVal.int n) => n
  | _ => 0

/-- Error text with the defensive `"unknown"` placeholder (lines 206-209). -/
def errTextOf (e : LogEntry) : String :=
  match e.err with
  | some msg => msg
  | none => "unknown"

/-- `filepath.Base` for slash-separated paths. -/
def baseName (path : String) : String :=
  let cs := path.data
  if cs.isEmpty then "."
  else
    let trimmed := (cs.reverse.dropWhile (· = '/')).reverse
    if trimmed.isEmpty then "/"
    else String.mk (trimmed.reverse.takeWhile (· ≠ '/')).reverse

/-- Breadcrumb category (lines 218-221): file base name up to `".go"`. -/
def categoryOf (e : LogEntry) : String :=
  if callerFile e = "" then ""
  else ((baseName (callerFile e)).splitOn ".go").headD ""

/-- The per-entry breadcrumb (source lines 212-222). -/
def entryCrumb (e : LogEntry) : Breadcrumb :=
  { category := categoryOf e
    message := errTextOf e ++ " (file: " ++ callerFile e ++ ", line: " ++
      toString (callerLine e) ++ ")"
    btype := "error"
    timestamp := e.time
    data := e.context }

/-- The unconditional command breadcrumb (source lines 181-185). -/
def inputCrumb (cmd : String) : Breadcrumb :=
  { category := "input", message := cmd, btype := "info", timestamp := "", data := none }

/-- instrument (source lines 180-226).  First component: the breadcrumbs in
emission order.  Second component: the `CaptureException(l[len(l)-1].Err)`
step, where the index is modelled by `getElem?` so that the out-of-bounds
access on an empty sequence shows up as `none`. -/
def instrument (l : List LogEntry) (cmd : String) :
    List Breadcrumb × Option (Option String) :=
  (inputCrumb cmd :: (l.filter instrumentEligible).map entryCrumb,
   (l[l.length - 1]?).map LogEntry.err)

/-- `cmd := "fastly " + strings.Join(args, " ")` (source line 89). -/
def cmdOf (args : List String) : String :=
  "fastly " ++ String.intercalate " " args

/-- The command header block written first (source line 130):
`cmd = "\nCOMMAND:\n" + cmd + "\n\n"`. -/
def headerOf (cmd : String) : String :=
  "\nCOMMAND:\n" ++ cmd ++ "\n\n"

/-- Trailing separator (source line 156). -/
def sepLine : String := "------------------------------\n\n"

/-- All rendered records, in store order (source lines 149-154). -/
def recordsOf (l : List LogEntry) : String :=
  String.join (l.map renderRecord)

/-- The base content the new bytes are appended to (source lines 99-121):
`O_APPEND|O_CREATE` then truncate-to-zero when the stat size is at or above
the rotation threshold. -/
def rotBase (rot : Nat) (fs : Option String) : String :=
  let existing := fs.getD ""
  if rot ≤ existing.length then "" else existing

/-- Outcome of a `Persist` call: resulting file content (if a file exists
afterwards), the forwarder invocation (if any) and the returned error. -/
structure PersistOut where
  file : Option String
  tel : Option (List Breadcrumb × Option (Option String))
  ret : Option String
deriving DecidableEq

/-- Persist (source lines 85-161) against file content `fs` (at `logPath`),
with the rotation threshold `rot` (the mutable `FileRotationSize`).  The
model has the I/O primitives succeed, so `ret` is `none` on every path. -/
def Persist (rot : Nat) (l : List LogEntry) (fs : Option String)
    (args : List String) : PersistOut :=
  if l.isEmpty then { file := fs, tel := none, ret := none }
  else
    let cmd := cmdOf args
    { file := some (rotBase rot fs ++ headerOf cmd ++ recordsOf l ++ sepLine)
      tel := some (instrument l cmd)
      ret := none }

/-! ### The redactor: `FilterToken` (source lines 163-177)

`TokenRegEx = Token ([\w-]+)` and
`TokenFlagRegEx = (-t|--token)(\s*=?\s*['"]?)([\w-]+)(['"]?)`, applied in
that order by `ReplaceAllString` with replacements `Token REDACTED` and
`${1}${2}REDACTED${4}`. -/

/-- Go regexp `[\w-]` (`\w` is ASCII `[0-9A-Za-z_]`). -/
def isWd (c : Char) : Bool := c.isAlphanum || c = '_' || c = '-'

/-- Go regexp `\s` = `[\t\n\f\r ]`. -/
def isSp (c : Char) : Bool :=
  c = ' ' || c = '\t' || c = '\n' || c = Char.ofNat 12 || c = '\r'

/-- Single-quote character. -/
def qS : Char := Char.ofNat 39

/-- Double-quote character. -/
def qD : Char := Char.ofNat 34

/-- Go regexp `['"]`. -/
def isQu (c : Char) : Bool := c = qS || c = qD

/-- The literal `Token ` (note the single space of the regex). -/
def tok6 : List Char := ['T', 'o', 'k', 'e', 'n', ' ']

/-- The literal `Token` alone. -/
def tok5 : List Char := ['T', 'o', 'k', 'e', 'n']

/-- The literal `REDACTED`. -/
def redW : List Char := ['R', 'E', 'D', 'A', 'C', 'T', 'E', 'D']

/-- The replacement `Token REDACTED` of the first pass. -/
def red1 : List Char := tok6 ++ redW

/-- The literal `-t`. -/
def tFlag : List Char := ['-', 't']

/-- The literal `--token`. -/
def tokenFlag : List Char := ['-', '-', 't', 'o', 'k', 'e', 'n']

/-- Head matcher for `Token ([\w-]+)`: on success, the remainder after the
greedy value run (the literal `Token `, then at least one `[\w-]`
character, consumed greedily). -/
def hm1 (l : List Char) : Option (List Char) :=
  if l.take 6 = tok6 ∧ (l.drop 6).head?.any isWd = true then
    some ((l.drop 6).dropWhile isWd)
  else none

/-- First-pass matcher in scanner form (replacement, remainder). -/
def m1 (l : List Char) : Option (List Char × List Char) :=
  (hm1 l).map (fun r => (red1, r))

/-- Group 1 `(-t|--token)`: RE2 prefers `-t`; the alternatives are disjoint
on the second character. -/
def flagSplit (l : List Char) : Option (List Char × List Char) :=
  if l.take 2 = tFlag then some (tFlag, l.drop 2)
  else if l.take 7 = tokenFlag then some (tokenFlag, l.drop 7)
  else none

/-- Greedy `=?`. -/
def takeEq : List Char → List Char × List Char
  | '=' :: v => (['='], v)
  | u => ([], u)

/-- Greedy `['"]?`. -/
def takeQu (u : List Char) : List Char × List Char :=
  match u with
  | c :: v => if isQu c then ([c], v) else ([], u)
  | [] => ([], u)

/-- What remains of the tail after `\s*=?\s*['"]?`. -/
def sepStrip (u0 : List Char) : List Char :=
  (takeQu (((takeEq (u0.dropWhile isSp)).2).dropWhile isSp)).2

/-- Matcher for `(\s*=?\s*['"]?)([\w-]+)(['"]?)` after the flag: on success,
the expanded replacement `${2}REDACTED${4}` (without the flag) and the
remainder. -/
def tailParse (u0 : List Char) : Option (List Char × List Char) :=
  let ws1 := u0.takeWhile isSp
  let ep := takeEq (u0.dropWhile isSp)
  let ws2 := ep.2.takeWhile isSp
  let qp := takeQu (ep.2.dropWhile isSp)
  if qp.2.head?.any isWd = true then
    let qp2 := takeQu (qp.2.dropWhile isWd)
    some (ws1 ++ ep.1 ++ ws2 ++ qp.1 ++ redW ++ qp2.1, qp2.2)
  else none

/-- Head matcher for the full flag regex: replacement `${1}${2}REDACTED${4}`
and remainder. -/
def hm2 (l : List Char) : Option (List Char × List Char) :=
  match flagSplit l with
  | none => none
  | some (g1, u0) => (tailParse u0).map (fun pr => (g1 ++ pr.1, pr.2))

/-- `ReplaceAllString`: scan left to right, replacing each leftmost
non-overlapping match, with explicit fuel (one unit per consumed position;
both matchers always consume at least one character). -/
def scanF (m : List Char → Option (List Char × List Char)) :
    Nat → List Char → List Char
  | 0, l => l
  | _ + 1, [] => []
  | fuel + 1, c :: cs =>
    match m (c :: cs) with
    | some (repl, rest) => repl ++ scanF m fuel rest
    | none => c :: scanF m fuel cs

/-- `ReplaceAllString` with the fuel instantiated to the input length. -/
def scan (m : List Char → Option (List Char × List Char)) (l : List Char) :
    List Char :=
  scanF m l.length l

/-- First replacement pass (`TokenRegEx`). -/
def pass1 (l : List Char) : List Char := scan m1 l

/-- Second replacement pass (`TokenFlagRegEx`). -/
def pass2 (l : List Char) : List Char := scan hm2 l

/-- FilterToken (source lines 173-177): both passes, in order. -/
def FilterToken (input : String) : String :=
  String.mk (pass2 (pass1 input.data))

/-! ### Reference definitions written to the specification's wording

These follow the spec text of the redaction passes ("the literal word
Token followed by whitespace and a token-shaped value", and the flag pass)
rather than the source regexes, for comparison with `FilterToken`. -/

/-- Modelled from the spec: first reference pass, "any occurrence of the
literal word `Token` followed by whitespace and a token-shaped value
(letters, digits, hyphen, underscore) is rewritten to `Token REDACTED`";
whitespace is one or more whitespace characters. -/
def specTokenWs (l : List Char) : Option (List Char × List Char) :=
  if l.take 5 = tok5 ∧ (l.drop 5).head?.any isSp = true ∧
      ((l.drop 5).dropWhile isSp).head?.any isWd = true then
    some (red1, ((l.drop 5).dropWhile isSp).dropWhile isWd)
  else none

/-- Modelled from the spec, amended: as `specTokenWs` but requiring a
single space character after `Token`. -/
def specTokenSp (l : List Char) : Option (List Char × List Char) :=
  if l.take 5 = tok5 ∧ (l.drop 5).take 1 = [' '] ∧
      ((l.drop 5).drop 1).head?.any isWd = true then
    some (red1, ((l.drop 5).drop 1).dropWhile isWd)
  else none

/-- Modelled from the spec: the flag alternatives, "a short-form (`-t`) or
long-form (`--token`) flag". -/
def flagSplitSpec (l : List Char) : Option (List Char × List Char) :=
  if l.take 7 = tokenFlag then some (tokenFlag, l.drop 7)
  else if l.take 2 = tFlag then some (tFlag, l.drop 2)
  else none

/-- Modelled from the spec: after the flag, "optionally followed by
`=`/whitespace and an optionally quoted token-shaped value, has the value
replaced with `REDACTED`, preserving the flag spelling, any separator, and
any surrounding quote characters". -/
def specFlagTail (u0 : List Char) : Option (List Char × List Char) :=
  let e := takeEq (u0.dropWhile isSp)
  let sep := u0.takeWhile isSp ++ e.1 ++ e.2.takeWhile isSp
  let q := takeQu (e.2.dropWhile isSp)
  if (q.2.takeWhile isWd).isEmpty then none
  else
    some (sep ++ (q.1 ++ (redW ++ (takeQu (q.2.dropWhile isWd)).1)),
          (takeQu (q.2.dropWhile isWd)).2)

/-- Modelled from the spec: the full second reference pass. -/
def specFlag (l : List Char) : Option (List Char × List Char) :=
  match flagSplitSpec l with
  | none => none
  | some (g1, u0) => (specFlagTail u0).map (fun pr => (g1 ++ pr.1, pr.2))

/-- The two-pass reference redactor exactly as the claim words it. -/
def FilterTokenSpec (input : String) : String :=
  String.mk (scan specFlag (scan specTokenWs input.data))

/-- The reference redactor with the first pass amended to a single space. -/
def FilterTokenSpecAmended (input : String) : String :=
  String.mk (scan specFlag (scan specTokenSp input.data))

/-- A matcher that consumes at least one character on success. -/
def Consuming (m : List Char → Option (List Char × List Char)) : Prop :=
  ∀ c cs repl rest, m (c :: cs) = some (repl, rest) → rest.length ≤ cs.length

/-! ### Order lemmas for sorted map iteration -/

theorem lexLe_total : ∀ x y : List Char, lexLe x y = true ∨ lexLe y x = true := by
  intro x
  induction x with
  | nil => intro y; left; rfl
  | cons c cs ih =>
    intro y
    cases y with
    | nil => right; rfl
    | cons d ds =>
      by_cases hcd : c = d
      · subst hcd
        rcases ih ds with h | h
        · left; simpa [lexLe] using h
        · right; simpa [lexLe] using h
      · have hdc : ¬ d = c := fun hh => hcd hh.symm
        rcases lt_or_gt_of_ne hcd with h | h
        · left; simp [lexLe, hcd, h]
        · right; simp [lexLe, hdc, h]

theorem lexLe_trans : ∀ x y z : List Char,
    lexLe x y = true → lexLe y z = true → lexLe x z = true := by
  intro x
  induction x with
  | nil => intro y z _ _; rfl
  | cons c cs ih =>
    intro y z hxy hyz
    cases y with
    | nil => simp [lexLe] at hxy
    | cons d ds =>
      cases z with
      | nil => simp [lexLe] at hyz
      | cons e es =>
        by_cases hcd : c = d <;> by_cases hde : d = e
        · subst hcd; subst hde
          simp only [lexLe, if_pos rfl] at hxy hyz ⊢
          exact ih _ _ hxy hyz
        · subst hcd
          simp only [lexLe, if_neg hde] at hyz
          simp [lexLe, hde]
          exact of_decide_eq_true hyz
        · subst hde
          simp only [lexLe, if_neg hcd] at hxy
          simp [lexLe, hcd]
          exact of_decide_eq_true hxy
        · simp only [lexLe, if_neg hcd] at hxy
          simp only [lexLe, if_neg hde] at hyz
          have h1 : c < d := of_decide_eq_true hxy
          have h2 : d < e := of_decide_eq_true hyz
          have hce : c < e := lt_trans h1 h2
          have : ¬ c = e := ne_of_lt hce
          simp [lexLe, this, hce]

theorem lexLe_antisymm : ∀ x y : List Char,
    lexLe x y = true → lexLe y x = true → x = y := by
  intro x
  induction x with
  | nil =>
    intro y _ hyx
    cases y with
    | nil => rfl
    | cons d ds => simp [lexLe] at hyx
  | cons c cs ih =>
    intro y hxy hyx
    cases y with
    | nil => simp [lexLe] at hxy
    | cons d ds =>
      by_cases hcd : c = d
      · subst hcd
        simp only [lexLe, if_pos rfl] at hxy hyx
        rw [ih ds hxy hyx]
      · have hdc : ¬ d = c := fun hh => hcd hh.symm
        simp only [lexLe, if_neg hcd] at hxy
        simp only [lexLe, if_neg hdc] at hyx
        have h1 : c < d := of_decide_eq_true hxy
        have h2 : d < c := of_decide_eq_true hyx
        exact absurd h1 (not_lt_of_gt h2)

instance : IsTotal (String × GoVal) pairLe :=
  ⟨fun a b => by unfold pairLe keyLe; exact lexLe_total a.1.data b.1.data⟩

instance : IsTrans (String × GoVal) pairLe :=
  ⟨fun a b c hab hbc => by
    unfold pairLe keyLe at *
    exact lexLe_trans _ _ _ hab hbc⟩

theorem sortPairs_sorted (m : List (String × GoVal)) :
    List.Sorted pairLe (sortPairs m) :=
  List.sorted_insertionSort pairLe m

theorem sortPairs_perm (m : List (String × GoVal)) :
    List.Perm (sortPairs m) m :=
  List.perm_insertionSort pairLe m

theorem keyLe_antisymm (a b : String) :
    keyLe a b = true → keyLe b a = true → a = b := by
  intro h1 h2
  unfold keyLe at h1 h2
  have hdata := lexLe_antisymm _ _ h1 h2
  calc a = String.mk a.data := rfl
    _ = String.mk b.data := by rw [hdata]
    _ = b := rfl

theorem sorted_key_eq : ∀ (l₁ l₂ : List (String × GoVal)),
    List.Sorted pairLe l₁ → List.Sorted pairLe l₂ → List.Perm l₁ l₂ →
    (l₁.map Prod.fst).Nodup → l₁ = l₂ := by
  intro l₁
  induction l₁ with
  | nil =>
    intro l₂ _ _ hperm _
    exact List.Perm.nil_eq hperm
  | cons a l₁' ih =>
    intro l₂ hs₁ hs₂ hperm hnd
    cases l₂ with
    | nil => exact absurd (List.Perm.symm hperm) (by simp)
    | cons b l₂' =>
      by_cases hab : a = b
      · subst hab
        have htail : List.Perm l₁' l₂' := List.Perm.cons_inv hperm
        rw [List.map_cons] at hnd
        have hnd' := List.nodup_cons.mp hnd
        have := ih l₂' (List.Sorted.of_cons hs₁) (List.Sorted.of_cons hs₂) htail hnd'.2
        rw [this]
      · have hbmem : b ∈ a :: l₁' := (List.Perm.mem_iff hperm.symm).mp (by simp)
        have hbmem' : b ∈ l₁' := by
          rcases List.mem_cons.mp hbmem with h | h
          · exact absurd h.symm hab
          · exact h
        have hamem : a ∈ b :: l₂' := (List.Perm.mem_iff hperm).mp (by simp)
        have hamem' : a ∈ l₂' := by
          rcases List.mem_cons.mp hamem with h | h
          · exact absurd h hab
          · exact h
        have h1 : pairLe a b := (List.sorted_cons.mp hs₁).1 b hbmem'
        have h2 : pairLe b a := (List.sorted_cons.mp hs₂).1 a hamem'
        have hkey : a.1 = b.1 := keyLe_antisymm _ _ h1 h2
        have hmem : b.1 ∈ l₁'.map Prod.fst := List.mem_map_of_mem Prod.fst hbmem'
        rw [← hkey] at hmem
        rw [List.map_cons] at hnd
        have hnd' := List.nodup_cons.mp hnd
        exact absurd hmem hnd'.1

theorem sortPairs_perm_eq (m₁ m₂ : List (String × GoVal))
    (hperm : List.Perm m₁ m₂) (hnd : (m₂.map Prod.fst).Nodup) :
    sortPairs m₁ = sortPairs m₂ := by
  have h1 := sortPairs_sorted m₁
  have h2 := sortPairs_sorted m₂
  have hp : List.Perm (sortPairs m₁) (sortPairs m₂) :=
    ((sortPairs_perm m₁).trans hperm).trans (sortPairs_perm m₂).symm
  have hnd1 : ((sortPairs m₁).map Prod.fst).Nodup := by
    have : List.Perm ((sortPairs m₁).map Prod.fst) (m₂.map Prod.fst) :=
      List.Perm.map Prod.fst ((sortPairs_perm m₁).trans hperm)
    exact this.nodup_iff.mpr hnd
  exact sorted_key_eq _ _ h1 h2 hp hnd1

/-! ### Store lemmas -/

theorem applyOp_append (l : List LogEntry) (op : RecOp) :
    applyOp l op = l ++ [opEntry op] := by
  cases op <;> rfl

theorem foldl_applyOp (ops : List RecOp) :
    ∀ acc : List LogEntry, List.foldl applyOp acc ops = acc ++ ops.map opEntry := by
  induction ops with
  | nil => intro acc; simp
  | cons op ops ih =>
    intro acc
    simp only [List.foldl_cons, List.map_cons]
    rw [applyOp_append, ih]
    simp

theorem runOps_eq (ops : List RecOp) : runOps ops = ops.map opEntry := by
  unfold runOps
  rw [foldl_applyOp]
  simp

theorem opEntry_err (op : RecOp) : (opEntry op).err = opErr op := by
  cases op <;> rfl

/-- Persist on a non-empty store writes base-then-header-then-records. -/
theorem Persist_file_ne_nil (rot : Nat) (l : List LogEntry) (fs : Option String)
    (args : List String) (h : l ≠ []) :
    (Persist rot l fs args).file =
      some (rotBase rot fs ++ headerOf (cmdOf args) ++ recordsOf l ++ sepLine) := by
  cases l with
  | nil => exact absurd rfl h
  | cons e es => rfl

/-- C1 (counterexample): an entry whose `AllowInstrumentation` value is the
non-boolean string `"yes"` is not skipped by `instrument` — a breadcrumb is
emitted although the value is not boolean `true`, so the claimed
"emitted iff the value is boolean true" equivalence fails on the code. -/
theorem C1_telemetry_optin_cex :
    instrumentEligible
      { time := "t", err := some "boom", caller := [],
        context := some [(AllowInstrumentation, GoVal.str "yes")] } = true ∧
    (instrument
      [{ time := "t", err := some "boom", caller := [],
         context := some [(AllowInstrumentation, GoVal.str "yes")] }] "fastly x").1 =
      [inputCrumb "fastly x",
       entryCrumb
         { time := "t", err := some "boom", caller := [],
           context := some [(AllowInstrumentation, GoVal.str "yes")] }] ∧
    GoVal.str "yes" ≠ GoVal.bool true := by
  refine ⟨by decide, rfl, by decide⟩

/-- C1 (amended): an entry-level breadcrumb is emitted iff the entry's
context is non-nil, contains `AllowInstrumentation`, and that value is not
boolean `false`; a present value of any non-boolean type also opts in. -/
theorem C1_telemetry_optin :
    ∀ (e : LogEntry),
      (instrumentEligible e = true ↔
        ∃ m v, e.context = some m ∧ m.lookup AllowInstrumentation = some v ∧
          v ≠ GoVal.bool false) ∧
      ∀ (l : List LogEntry) (cmd : String),
        (instrument l cmd).1 =
          inputCrumb cmd :: (l.filter instrumentEligible).map entryCrumb := by
  intro e
  refine ⟨?_, fun l cmd => rfl⟩
  constructor
  · intro h
    cases hctx : e.context with
    | none => simp [instrumentEligible, hctx] at h
    | some m =>
      cases hlk : m.lookup AllowInstrumentation with
      | none => simp [instrumentEligible, hctx, hlk] at h
      | some v =>
        simp only [instrumentEligible, hctx, hlk] at h
        refine ⟨m, v, rfl, hlk, ?_⟩
        intro hv
        subst hv
        simp at h
  · rintro ⟨m, v, hctx, hlk, hv⟩
    simp only [instrumentEligible, hctx, hlk]
    cases v with
    | bool b =>
      cases b with
      | false => exact absurd rfl hv
      | true => rfl
    | str s => rfl
    | int n => rfl

/-- C2: the forwarder's final capture is exactly the last entry's error
(the `len(l)-1` index is in bounds), and an empty store returns from
`Persist` before the forwarder runs, so the capture step never executes on
an empty sequence. -/
theorem C2_last_error_capture :
    ∀ (rot : Nat) (l : List LogEntry) (fs : Option String) (args : List String),
      (l = [] → (Persist rot l fs args).tel = none) ∧
      ∀ h : l ≠ [],
        (Persist rot l fs args).tel = some (instrument l (cmdOf args)) ∧
        l[l.length - 1]? = some (l.getLast h) ∧
        (instrument l (cmdOf args)).2 = some ((l.getLast h).err) := by
  intro rot l fs args
  constructor
  · intro h; subst h; rfl
  · intro h
    have hidx : l[l.length - 1]? = some (l.getLast h) := by
      rw [← List.getLast?_eq_getElem?, List.getLast?_eq_getLast_of_ne_nil h]
    refine ⟨?_, hidx, ?_⟩
    · cases l with
      | nil => exact absurd rfl h
      | cons e es => rfl
    · simp [instrument, hidx]

/-- C2 witness at concrete inputs. -/
theorem C2_last_error_capture_witness :
    (Persist 5 ([] : List LogEntry) none ["a"]).tel = none ∧
    (instrument [{ time := "t", err := some "boom", caller := [], context := none }]
      (cmdOf ["a"])).2 = some (some "boom") := by
  constructor
  · exact (C2_last_error_capture 5 [] none ["a"]).1 rfl
  · have h := ((C2_last_error_capture 5
      [{ time := "t", err := some "boom", caller := [], context := none }]
      none ["a"]).2 (by decide)).2.2
    simpa using h

/-- C3: with an existing file at or above the threshold the resulting file
holds only the newly written content; below the threshold the new content
is appended; the default threshold is 5242880 bytes. -/
theorem C3_rotation :
    ∀ (rot : Nat) (l : List LogEntry) (c : String) (args : List String),
      l ≠ [] →
      (rot ≤ c.length →
        (Persist rot l (some c) args).file =
          some (headerOf (cmdOf args) ++ recordsOf l ++ sepLine)) ∧
      (c.length < rot →
        (Persist rot l (some c) args).file =
          some (c ++ headerOf (cmdOf args) ++ recordsOf l ++ sepLine)) ∧
      FileRotationSize = 5242880 := by
  intro rot l c args h
  refine ⟨?_, ?_, rfl⟩
  · intro hrot
    rw [Persist_file_ne_nil rot l (some c) args h]
    have hbase : rotBase rot (some c) = "" := by simp [rotBase, hrot]
    rw [hbase]
    rfl
  · intro hrot
    rw [Persist_file_ne_nil rot l (some c) args h]
    have hbase : rotBase rot (some c) = c := by
      simp [rotBase]
      omega
    rw [hbase]

/-- C3 witness at concrete inputs (both sides of the threshold). -/
theorem C3_rotation_witness :
    (Persist 3 [{ time := "t", err := some "e", caller := [], context := none }]
      (some "abcd") ["x"]).file =
      some (headerOf (cmdOf ["x"]) ++
        recordsOf [{ time := "t", err := some "e", caller := [], context := none }] ++ sepLine) ∧
    (Persist 9 [{ time := "t", err := some "e", caller := [], context := none }]
      (some "abcd") ["x"]).file =
      some ("abcd" ++ headerOf (cmdOf ["x"]) ++
        recordsOf [{ time := "t", err := some "e", caller := [], context := none }] ++ sepLine) := by
  constructor
  · exact ((C3_rotation 3 [{ time := "t", err := some "e", caller := [], context := none }]
      "abcd" ["x"] (by decide)).1 (by decide))
  · exact ((C3_rotation 9 [{ time := "t", err := some "e", caller := [], context := none }]
      "abcd" ["x"] (by decide)).2.1 (by decide))

/-- C4: persisting an empty store succeeds immediately: the file state is
untouched (none is created), no telemetry is forwarded, and the returned
error is nil. -/
theorem C4_empty_persist_noop :
    ∀ (rot : Nat) (fs : Option String) (args : List String),
      Persist rot [] fs args = { file := fs, tel := none, ret := none } := by
  intro rot fs args
  rfl

/-- C7 (counterexample): the first bytes written by `Persist` are not the
block `COMMAND:\n<cmd>\n\n` — the written content starts with a newline. -/
theorem C7_command_header_cex :
    ¬ ∃ rest : String,
      (Persist 100 [{ time := "t", err := some "boom", caller := [], context := none }]
        none ["service", "describe"]).file =
        some ("COMMAND:\n" ++ cmdOf ["service", "describe"] ++ "\n\n" ++ rest) := by
  rintro ⟨rest, h⟩
  rw [show (Persist 100 [{ time := "t", err := some "boom", caller := [], context := none }]
        none ["service", "describe"]).file =
      some "\nCOMMAND:\nfastly service describe\n\nTIMESTAMP:\nt\n\nERROR:\nboom\n\n\n------------------------------\n\n"
    from by decide] at h
  have hx := Option.some.inj h
  have hhead := congrArg (fun s : String => s.data.head?) hx
  simp only at hhead
  rw [String.data_append, String.data_append, String.data_append] at hhead
  have h1 : ("\nCOMMAND:\nfastly service describe\n\nTIMESTAMP:\nt\n\nERROR:\nboom\n\n\n------------------------------\n\n" : String).data.head? = some '\n' := by decide
  rw [h1] at hhead
  have h2 : (("COMMAND:\n" : String).data ++ (cmdOf ["service", "describe"]).data ++
      ("\n\n" : String).data ++ rest.data).head? = some 'C' := rfl
  rw [h2] at hhead
  cases hhead

/-- C7 (amended): for a non-empty store the newly written bytes start with
exactly `\nCOMMAND:\n<cmd>\n\n` — a leading newline, then the header — with
`<cmd>` being `fastly ` followed by the space-joined arguments, before any
entry records. -/
theorem C7_command_header :
    ∀ (rot : Nat) (l : List LogEntry) (fs : Option String) (args : List String),
      l ≠ [] →
      (Persist rot l fs args).file =
        some (rotBase rot fs ++
          ("\nCOMMAND:\n" ++ ("fastly " ++ String.intercalate " " args) ++ "\n\n") ++
          (recordsOf l ++ sepLine)) := by
  intro rot l fs args h
  rw [Persist_file_ne_nil rot l fs args h]
  congr 1
  simp [headerOf, cmdOf, String.append_assoc]

/-- C7 witness at concrete inputs. -/
theorem C7_command_header_witness :
    (Persist 100 [{ time := "t", err := some "boom", caller := [], context := none }]
      none ["x"]).file =
      some (rotBase 100 none ++
        ("\nCOMMAND:\n" ++ ("fastly " ++ String.intercalate " " ["x"]) ++ "\n\n") ++
        (recordsOf [{ time := "t", err := some "boom", caller := [], context := none }] ++
          sepLine)) :=
  C7_command_header 100 [{ time := "t", err := some "boom", caller := [], context := none }]
    none ["x"] (by decide)

/-- C8: N recording calls yield a store of length N holding the entries in
call order (each call appends to the end), and persistence renders the
records in that same order. -/
theorem C8_store_order :
    ∀ (ops : List RecOp),
      runOps ops = ops.map opEntry ∧
      (runOps ops).length = ops.length ∧
      (∀ (l : List LogEntry) (op : RecOp), applyOp l op = l ++ [opEntry op]) ∧
      ∀ (rot : Nat) (fs : Option String) (args : List String),
        runOps ops ≠ [] →
        (Persist rot (runOps ops) fs args).file =
          some (rotBase rot fs ++ headerOf (cmdOf args) ++
            String.join ((ops.map opEntry).map renderRecord) ++ sepLine) := by
  intro ops
  have hrun := runOps_eq ops
  refine ⟨hrun, by rw [hrun]; simp, applyOp_append, ?_⟩
  intro rot fs args h
  rw [Persist_file_ne_nil rot (runOps ops) fs args h]
  unfold recordsOf
  rw [hrun]

/-- C8 witness at concrete inputs. -/
theorem C8_store_order_witness :
    runOps [RecOp.add "t1" none (some "a"), RecOp.addWithContext "t2" none (some "b") none] =
      [opEntry (RecOp.add "t1" none (some "a")),
       opEntry (RecOp.addWithContext "t2" none (some "b") none)] ∧
    (Persist 7 (runOps [RecOp.add "t1" none (some "a"),
        RecOp.addWithContext "t2" none (some "b") none]) none ["y"]).file =
      some (rotBase 7 none ++ headerOf (cmdOf ["y"]) ++
        String.join (([RecOp.add "t1" none (some "a"),
          RecOp.addWithContext "t2" none (some "b") none].map opEntry).map renderRecord) ++
        sepLine) := by
  constructor
  · exact (C8_store_order [RecOp.add "t1" none (some "a"),
      RecOp.addWithContext "t2" none (some "b") none]).1
  · exact (C8_store_order [RecOp.add "t1" none (some "a"),
      RecOp.addWithContext "t2" none (some "b") none]).2.2.2 7 none ["y"] (by decide)

/-- C9 (counterexample): `Add` performs no nil check, so a store reached by
a single `add` call carrying a nil error holds an entry whose `err` is nil,
refuting the claim over all call sequences. -/
theorem C9_nonnil_err_cex :
    ∃ e ∈ runOps [RecOp.add "t0" none none], e.err = none := by decide

/-- C9 (amended): the store preserves but does not enforce non-nilness:
whenever every recording call passes a non-nil error, every stored entry's
error is non-nil. -/
theorem C9_nonnil_err :
    ∀ (ops : List RecOp), (∀ op ∈ ops, (opErr op).isSome = true) →
      ∀ e ∈ runOps ops, e.err.isSome = true := by
  intro ops hops e he
  rw [runOps_eq] at he
  obtain ⟨op, hmem, rfl⟩ := List.mem_map.mp he
  rw [opEntry_err]
  exact hops op hmem

/-- C9 witness at concrete inputs. -/
theorem C9_nonnil_err_witness :
    ({ time := "t0", err := some "boom", caller := [], context := none } : LogEntry).err.isSome
      = true :=
  C9_nonnil_err [RecOp.add "t0" none (some "boom")] (by decide)
    { time := "t0", err := some "boom", caller := [], context := none } (by decide)

/-- C10: the rendered record lists caller pairs and context pairs in
ascending key order (`FILE` before `LINE`), and rendering is invariant
under reordering of the association lists backing the maps. -/
theorem C10_sorted_render :
    ∀ (e : LogEntry),
      List.Sorted pairLe (sortPairs e.caller) ∧
      List.Sorted pairLe (sortPairs (e.context.getD [])) ∧
      (∀ vf vl : GoVal, sortPairs [("LINE", vl), ("FILE", vf)] = [("FILE", vf), ("LINE", vl)]) ∧
      ∀ (t : String) (er : Option String) (ca ca' cx cx' : List (String × GoVal)),
        List.Perm ca' ca → (ca.map Prod.fst).Nodup →
        List.Perm cx' cx → (cx.map Prod.fst).Nodup →
        renderRecord { time := t, err := er, caller := ca', context := some cx' } =
        renderRecord { time := t, err := er, caller := ca, context := some cx } := by
  intro e
  refine ⟨sortPairs_sorted _, sortPairs_sorted _, ?_, ?_⟩
  · intro vf vl
    simp [sortPairs, List.insertionSort, List.orderedInsert, pairLe, keyLe]
    decide
  · intro t er ca ca' cx cx' hca hndca hcx hndcx
    unfold renderRecord
    simp only [Option.getD_some]
    rw [sortPairs_perm_eq ca' ca hca hndca, sortPairs_perm_eq cx' cx hcx hndcx]

/-- C10 witness at concrete inputs. -/
theorem C10_sorted_render_witness :
    renderRecord
      { time := "t", err := some "e",
        caller := [("LINE", GoVal.int 2), ("FILE", GoVal.str "f.go")],
        context := some [("b", GoVal.int 1), ("a", GoVal.int 0)] } =
    renderRecord
      { time := "t", err := some "e",
        caller := [("FILE", GoVal.str "f.go"), ("LINE", GoVal.int 2)],
        context := some [("a", GoVal.int 0), ("b", GoVal.int 1)] } :=
  (C10_sorted_render { time := "t", err := some "e", caller := [], context := none }).2.2.2
    "t" (some "e")
    [("FILE", GoVal.str "f.go"), ("LINE", GoVal.int 2)]
    [("LINE", GoVal.int 2), ("FILE", GoVal.str "f.go")]
    [("a", GoVal.int 0), ("b", GoVal.int 1)]
    [("b", GoVal.int 1), ("a", GoVal.int 0)]
    (by decide) (by decide) (by decide) (by decide)

/-! ### Scanner lemmas -/

theorem scanF_succ_cons (m : List Char → Option (List Char × List Char))
    (f : Nat) (c : Char) (cs : List Char) :
    scanF m (f + 1) (c :: cs) =
      match m (c :: cs) with
      | some (repl, rest) => repl ++ scanF m f rest
      | none => c :: scanF m f cs := rfl

theorem scanF_fuel (m : List Char → Option (List Char × List Char)) (hm : Consuming m) :
    ∀ f₁ f₂ l, l.length ≤ f₁ → l.length ≤ f₂ → scanF m f₁ l = scanF m f₂ l := by
  intro f₁
  induction f₁ with
  | zero =>
    intro f₂ l h1 _
    have : l = [] := List.eq_nil_of_length_eq_zero (Nat.le_zero.mp h1)
    subst this
    cases f₂ <;> rfl
  | succ f ih =>
    intro f₂ l h1 h2
    cases l with
    | nil => cases f₂ <;> rfl
    | cons c cs =>
      cases f₂ with
      | zero => simp at h2
      | succ f₂' =>
        rw [scanF_succ_cons, scanF_succ_cons]
        cases hmc : m (c :: cs) with
        | none =>
          simp only
          rw [ih f₂' cs (by simp at h1; omega) (by simp at h2; omega)]
        | some pr =>
          obtain ⟨repl, rest⟩ := pr
          simp only
          have hrest := hm c cs repl rest hmc
          rw [ih f₂' rest (by simp at h1; omega) (by simp at h2; omega)]

theorem scan_cons_some (m : List Char → Option (List Char × List Char))
    (hm : Consuming m) {c : Char} {cs repl rest : List Char}
    (h : m (c :: cs) = some (repl, rest)) :
    scan m (c :: cs) = repl ++ scan m rest := by
  unfold scan
  rw [List.length_cons, scanF_succ_cons, h]
  exact congrArg (repl ++ ·) (scanF_fuel m hm cs.length rest.length rest
    (hm c cs repl rest h) le_rfl)

theorem scan_cons_none (m : List Char → Option (List Char × List Char))
    {c : Char} {cs : List Char} (h : m (c :: cs) = none) :
    scan m (c :: cs) = c :: scan m cs := by
  unfold scan
  rw [List.length_cons, scanF_succ_cons, h]

theorem scan_congr (m m' : List Char → Option (List Char × List Char))
    (hmm : ∀ l, m l = m' l) (l : List Char) : scan m l = scan m' l := by
  unfold scan
  generalize l.length = f
  induction f generalizing l with
  | zero => rfl
  | succ f ih =>
    cases l with
    | nil => rfl
    | cons c cs =>
      rw [scanF_succ_cons, scanF_succ_cons, hmm (c :: cs)]
      cases m' (c :: cs) with
      | none => simp only; rw [ih]
      | some pr => obtain ⟨repl, rest⟩ := pr; simp only; rw [ih]

/-! ### First-pass matcher lemmas -/

theorem hm1_inv {l r : List Char} (h : hm1 l = some r) :
    l.take 6 = tok6 ∧ ∃ c, (l.drop 6).head? = some c ∧ isWd c = true ∧
      r = (l.drop 6).dropWhile isWd := by
  unfold hm1 at h
  split at h
  next hcond =>
    obtain ⟨htake, hany⟩ := hcond
    cases hh : (l.drop 6).head? with
    | none => rw [hh] at hany; cases hany
    | some c =>
      rw [hh] at hany
      exact ⟨htake, c, rfl, by simpa using hany, (Option.some.inj h).symm⟩
  next => cases h

theorem hm1_eq_some {u : List Char} {c : Char}
    (hc : u.head? = some c) (hwd : isWd c = true) :
    hm1 (tok6 ++ u) = some (u.dropWhile isWd) := by
  unfold hm1
  rw [List.take_left' (show tok6.length = 6 by rfl),
    List.drop_left' (show tok6.length = 6 by rfl), hc]
  rw [if_pos ⟨rfl, by simpa using hwd⟩]

theorem hm1_none_of_head {c : Char} {cs : List Char} (h : ¬ c = 'T') :
    hm1 (c :: cs) = none := by
  unfold hm1
  rw [if_neg]
  rintro ⟨hEq, -⟩
  have hstep : (c :: cs).take 6 = c :: cs.take 5 := rfl
  rw [hstep] at hEq
  injection hEq with h1 _
  exact h h1

theorem hm1_some_head {l r : List Char} (h : hm1 l = some r) : l.head? = some 'T' := by
  obtain ⟨htake, c, _, _, _⟩ := hm1_inv h
  have hl : l = tok6 ++ l.drop 6 := by rw [← htake]; exact (List.take_append_drop 6 l).symm
  rw [hl]
  rfl

theorem hm1_rest_head {l r : List Char} (h : hm1 l = some r) :
    ∀ c, r.head? = some c → isWd c = false := by
  obtain ⟨-, c₀, -, -, hr⟩ := hm1_inv h
  intro c hc
  have hd := List.head?_dropWhile_not isWd (l.drop 6)
  rw [← hr, hc] at hd
  simpa using hd

theorem hm1_length {l r : List Char} (h : hm1 l = some r) : r.length + 6 ≤ l.length := by
  obtain ⟨htake, c, hc, hwd, hr⟩ := hm1_inv h
  have hlen := congrArg List.length htake
  rw [List.length_take] at hlen
  have h2 : (tok6 : List Char).length = 6 := rfl
  rw [h2] at hlen
  have hdl : ((l.drop 6).dropWhile isWd).length ≤ (l.drop 6).length :=
    ((l.drop 6).dropWhile_suffix isWd).length_le
  rw [hr]
  simp only [List.length_drop] at hdl
  omega

theorem consuming_m1 : Consuming m1 := by
  intro c cs repl rest h
  unfold m1 at h
  cases hh : hm1 (c :: cs) with
  | none => rw [hh] at h; cases h
  | some r =>
    rw [hh] at h
    have hlen := hm1_length hh
    have hr : rest = r := by
      have := Option.some.inj h
      exact (congrArg Prod.snd this).symm
    rw [hr]
    simp only [List.length_cons] at hlen
    omega

theorem pass1_cons_some {c : Char} {cs r : List Char} (h : hm1 (c :: cs) = some r) :
    pass1 (c :: cs) = red1 ++ pass1 r := by
  unfold pass1
  exact scan_cons_some m1 consuming_m1 (by unfold m1; rw [h]; rfl)

theorem pass1_cons_none {c : Char} {cs : List Char} (h : hm1 (c :: cs) = none) :
    pass1 (c :: cs) = c :: pass1 cs := by
  unfold pass1
  exact scan_cons_none m1 (by unfold m1; rw [h]; rfl)

theorem pass1_head? : ∀ l : List Char, (pass1 l).head? = l.head? := by
  intro l
  cases l with
  | nil => rfl
  | cons c cs =>
    cases hh : hm1 (c :: cs) with
    | none => rw [pass1_cons_none hh]; rfl
    | some r =>
      rw [pass1_cons_some hh]
      have := hm1_some_head hh
      simp only [List.head?_cons] at this ⊢
      rw [show ((red1 ++ pass1 r).head? = some 'T') from rfl]
      exact this.symm

/-! ### First-pass idempotence -/

theorem hm1_nil : hm1 ([] : List Char) = none := by decide

theorem pass1_eq_some {l r : List Char} (h : hm1 l = some r) :
    pass1 l = red1 ++ pass1 r := by
  cases l with
  | nil => rw [hm1_nil] at h; cases h
  | cons c cs => exact pass1_cons_some h

theorem dropWhile_eq_self_of_head {p : Char → Bool} {t : List Char}
    (h : ∀ c, t.head? = some c → p c = false) : t.dropWhile p = t := by
  cases t with
  | nil => rfl
  | cons c cs =>
    exact List.dropWhile_cons_of_neg (by simp [h c rfl])

theorem redW_all_wd : ∀ c ∈ redW, isWd c = true := by decide

theorem hm1_red1_append {t : List Char}
    (h : ∀ c, t.head? = some c → isWd c = false) :
    hm1 (red1 ++ t) = some t := by
  have hassoc : red1 ++ t = tok6 ++ (redW ++ t) := by
    unfold red1
    rw [List.append_assoc]
  rw [hassoc]
  cases hh : (redW ++ t).head? with
  | none => cases hh
  | some c =>
    have hc : c = 'R' := by
      have : (redW ++ t).head? = some 'R' := rfl
      rw [hh] at this
      exact Option.some.inj this
    subst hc
    rw [hm1_eq_some hh (by decide)]
    rw [List.dropWhile_append_of_pos redW_all_wd, dropWhile_eq_self_of_head h]

theorem pass1_peel_append : ∀ (a : List Char), (∀ c ∈ a, ¬ c = 'T') →
    ∀ {l v : List Char}, pass1 l = a ++ v → ∃ l', l = a ++ l' ∧ pass1 l' = v := by
  intro a
  induction a with
  | nil => intro _ l v h; exact ⟨l, rfl, h⟩
  | cons c a' ih =>
    intro ha l v h
    have hcT : ¬ c = 'T' := ha c (by simp)
    cases l with
    | nil => rw [show pass1 ([] : List Char) = [] from rfl] at h; cases h
    | cons d ds =>
      cases hh : hm1 (d :: ds) with
      | some r =>
        rw [pass1_cons_some hh] at h
        have : (red1 ++ pass1 r).head? = some 'T' := rfl
        rw [h] at this
        simp only [List.cons_append, List.head?_cons] at this
        exact absurd (Option.some.inj this) hcT
      | none =>
        rw [pass1_cons_none hh] at h
        rw [List.cons_append] at h
        have hd : d = c := by injection h with h1 _
        have htail : pass1 ds = a' ++ v := by injection h with _ h2
        obtain ⟨l', hl', hp⟩ := ih (fun x hx => ha x (by simp [hx])) htail
        exact ⟨l', by rw [hd, hl']; rfl, hp⟩

theorem hm1_none_step {c : Char} {cs : List Char} (h : hm1 (c :: cs) = none) :
    hm1 (c :: pass1 cs) = none := by
  cases hh : hm1 (c :: pass1 cs) with
  | none => rfl
  | some r =>
    exfalso
    obtain ⟨htake, c₀, hc₀, hwd, -⟩ := hm1_inv hh
    have hstep : (c :: pass1 cs).take 6 = c :: (pass1 cs).take 5 := rfl
    rw [hstep] at htake
    have hcT : c = 'T' := by injection htake with h1 _
    have htake5 : (pass1 cs).take 5 = ['o', 'k', 'e', 'n', ' '] := by
      injection htake with _ h2
    have hsplit : pass1 cs = ['o', 'k', 'e', 'n', ' '] ++ (pass1 cs).drop 5 := by
      rw [← htake5]
      exact (List.take_append_drop 5 (pass1 cs)).symm
    obtain ⟨cs5, hcs, hp5⟩ := pass1_peel_append ['o', 'k', 'e', 'n', ' '] (by decide) hsplit
    have hdrop : (c :: pass1 cs).drop 6 = (pass1 cs).drop 5 := rfl
    rw [hdrop] at hc₀
    have hcs5head : cs5.head? = some c₀ := by
      rw [← pass1_head? cs5, hp5]
      exact hc₀
    have : hm1 (c :: cs) = some (cs5.dropWhile isWd) := by
      rw [hcT, hcs]
      have : ('T' : Char) :: (['o', 'k', 'e', 'n', ' '] ++ cs5) = tok6 ++ cs5 := rfl
      rw [this]
      exact hm1_eq_some hcs5head hwd
    rw [h] at this
    cases this

theorem pass1_idem_aux : ∀ (n : Nat) (l : List Char), l.length ≤ n →
    pass1 (pass1 l) = pass1 l := by
  intro n
  induction n with
  | zero =>
    intro l h
    have : l = [] := List.eq_nil_of_length_eq_zero (Nat.le_zero.mp h)
    subst this
    rfl
  | succ n ih =>
    intro l h
    cases l with
    | nil => rfl
    | cons c cs =>
      cases hh : hm1 (c :: cs) with
      | none =>
        rw [pass1_cons_none hh, pass1_cons_none (hm1_none_step hh),
          ih cs (by simp at h; omega)]
      | some r =>
        rw [pass1_cons_some hh]
        have hred : hm1 (red1 ++ pass1 r) = some (pass1 r) := by
          apply hm1_red1_append
          intro c₀ hc₀
          rw [pass1_head?] at hc₀
          exact hm1_rest_head hh c₀ hc₀
        rw [pass1_eq_some hred]
        have hlen := hm1_length hh
        rw [ih r (by simp only [List.length_cons] at h hlen; omega)]

theorem pass1_idem (l : List Char) : pass1 (pass1 l) = pass1 l :=
  pass1_idem_aux l.length l le_rfl

/-! ### Second-pass matcher lemmas -/

theorem takeEq_eq (v : List Char) : takeEq ('=' :: v) = (['='], v) := rfl

theorem takeEq_cons_ne {c : Char} {v : List Char} (h : ¬ c = '=') :
    takeEq (c :: v) = ([], c :: v) := by
  unfold takeEq
  split
  next v' heq =>
    exfalso
    injection heq with h1 _
    exact h h1
  next => rfl

theorem takeEq_nil : takeEq [] = ([], []) := rfl

theorem takeEq_inv (u : List Char) :
    ((takeEq u).1 = ['='] ∧ u = '=' :: (takeEq u).2) ∨
    ((takeEq u).1 = [] ∧ (takeEq u).2 = u ∧
      ∀ c, u.head? = some c → ¬ c = '=') := by
  cases u with
  | nil => right; exact ⟨rfl, rfl, fun c hc => by cases hc⟩
  | cons c v =>
    by_cases hc : c = '='
    · subst hc
      left
      rw [takeEq_eq]
      exact ⟨rfl, rfl⟩
    · right
      rw [takeEq_cons_ne hc]
      exact ⟨rfl, rfl, fun c₀ hc₀ => by
        rw [List.head?_cons] at hc₀
        rw [← Option.some.inj hc₀]
        exact hc⟩

theorem takeQu_cons_qu {c : Char} {v : List Char} (h : isQu c = true) :
    takeQu (c :: v) = ([c], v) := by
  show (if isQu c = true then ([c], v) else ([], c :: v)) = ([c], v)
  rw [if_pos h]

theorem takeQu_cons_ne {c : Char} {v : List Char} (h : isQu c = false) :
    takeQu (c :: v) = ([], c :: v) := by
  show (if isQu c = true then ([c], v) else ([], c :: v)) = ([], c :: v)
  rw [if_neg (by simp [h])]

theorem takeQu_nil : takeQu [] = ([], []) := rfl

theorem takeQu_inv (u : List Char) :
    (∃ c, isQu c = true ∧ (takeQu u).1 = [c] ∧ u = c :: (takeQu u).2) ∨
    ((takeQu u).1 = [] ∧ (takeQu u).2 = u ∧
      ∀ c, u.head? = some c → isQu c = false) := by
  cases u with
  | nil => right; exact ⟨rfl, rfl, fun c hc => by cases hc⟩
  | cons c v =>
    cases hq : isQu c with
    | true =>
      left
      exact ⟨c, hq, by rw [takeQu_cons_qu hq], by rw [takeQu_cons_qu hq]⟩
    | false =>
      right
      rw [takeQu_cons_ne hq]
      exact ⟨rfl, rfl, fun c₀ hc₀ => by
        rw [List.head?_cons] at hc₀
        rw [← Option.some.inj hc₀]
        exact hq⟩

theorem takeEq_snd_length (u : List Char) : (takeEq u).2.length ≤ u.length := by
  rcases takeEq_inv u with ⟨-, hu⟩ | ⟨-, h2, -⟩
  · conv_rhs => rw [hu]
    simp
  · rw [h2]

theorem takeQu_snd_length (u : List Char) : (takeQu u).2.length ≤ u.length := by
  rcases takeQu_inv u with ⟨c, -, -, hu⟩ | ⟨-, h2, -⟩
  · conv_rhs => rw [hu]
    simp
  · rw [h2]

theorem flagSplit_tFlag_append (z : List Char) :
    flagSplit (tFlag ++ z) = some (tFlag, z) := by
  unfold flagSplit
  rw [List.take_left' (show tFlag.length = 2 by rfl),
    List.drop_left' (show tFlag.length = 2 by rfl), if_pos rfl]

theorem flagSplit_tokenFlag_append (z : List Char) :
    flagSplit (tokenFlag ++ z) = some (tokenFlag, z) := by
  unfold flagSplit
  rw [List.take_left' (show tokenFlag.length = 7 by rfl),
    List.drop_left' (show tokenFlag.length = 7 by rfl)]
  rw [if_neg, if_pos rfl]
  intro hEq
  have hred : (tokenFlag ++ z).take 2 = ['-', '-'] := rfl
  rw [hred] at hEq
  cases hEq

theorem flagSplit_inv {l g1 u0 : List Char} (h : flagSplit l = some (g1, u0)) :
    (g1 = tFlag ∧ l = tFlag ++ u0) ∨ (g1 = tokenFlag ∧ l = tokenFlag ++ u0) := by
  unfold flagSplit at h
  split at h
  next htake =>
    left
    have hl := Option.some.inj h
    refine ⟨(congrArg Prod.fst hl).symm, ?_⟩
    have hu : u0 = l.drop 2 := (congrArg Prod.snd hl).symm
    rw [hu, ← htake]
    exact (List.take_append_drop 2 l).symm
  next =>
    split at h
    next htake =>
      right
      have hl := Option.some.inj h
      refine ⟨(congrArg Prod.fst hl).symm, ?_⟩
      have hu : u0 = l.drop 7 := (congrArg Prod.snd hl).symm
      rw [hu, ← htake]
      exact (List.take_append_drop 7 l).symm
    next => cases h

theorem flagSplit_none_of_head {c : Char} {cs : List Char} (h : ¬ c = '-') :
    flagSplit (c :: cs) = none := by
  unfold flagSplit
  rw [if_neg, if_neg]
  · intro hEq
    have hstep : (c :: cs).take 7 = c :: cs.take 6 := rfl
    rw [hstep] at hEq
    injection hEq with h1 _
    exact h h1
  · intro hEq
    have hstep : (c :: cs).take 2 = c :: cs.take 1 := rfl
    rw [hstep] at hEq
    injection hEq with h1 _
    exact h h1

theorem hm2_none_of_head {c : Char} {cs : List Char} (h : ¬ c = '-') :
    hm2 (c :: cs) = none := by
  unfold hm2
  rw [flagSplit_none_of_head h]

theorem hm2_inv {l repl rest : List Char} (h : hm2 l = some (repl, rest)) :
    ∃ g1 u0 pr1, flagSplit l = some (g1, u0) ∧
      tailParse u0 = some (pr1, rest) ∧ repl = g1 ++ pr1 := by
  cases hf : flagSplit l with
  | none => unfold hm2 at h; rw [hf] at h; cases h
  | some pr =>
    obtain ⟨g1, u0⟩ := pr
    unfold hm2 at h
    rw [hf] at h
    change (tailParse u0).map (fun pr => (g1 ++ pr.1, pr.2)) = some (repl, rest) at h
    cases ht : tailParse u0 with
    | none => rw [ht] at h; cases h
    | some pr2 =>
      obtain ⟨pr1, rest'⟩ := pr2
      rw [ht] at h
      have hinj : ((g1 ++ pr1 : List Char), rest') = (repl, rest) := Option.some.inj h
      have hr : rest' = rest := congrArg Prod.snd hinj
      have hrp : repl = g1 ++ pr1 := (congrArg Prod.fst hinj).symm
      refine ⟨g1, u0, pr1, rfl, ?_, hrp⟩
      rw [ht, hr]

theorem tailParse_inv {u0 pr1 rest : List Char} (h : tailParse u0 = some (pr1, rest)) :
    ∃ c₀, ((takeQu ((takeEq (u0.dropWhile isSp)).2.dropWhile isSp)).2.head? = some c₀ ∧
      isWd c₀ = true) ∧
    pr1 = u0.takeWhile isSp ++ (takeEq (u0.dropWhile isSp)).1 ++
      (takeEq (u0.dropWhile isSp)).2.takeWhile isSp ++
      (takeQu ((takeEq (u0.dropWhile isSp)).2.dropWhile isSp)).1 ++ redW ++
      (takeQu ((takeQu ((takeEq (u0.dropWhile isSp)).2.dropWhile isSp)).2.dropWhile isWd)).1 ∧
    rest = (takeQu ((takeQu ((takeEq (u0.dropWhile isSp)).2.dropWhile isSp)).2.dropWhile isWd)).2 := by
  unfold tailParse at h
  change (if (takeQu ((takeEq (u0.dropWhile isSp)).2.dropWhile isSp)).2.head?.any isWd = true
      then some (u0.takeWhile isSp ++ (takeEq (u0.dropWhile isSp)).1 ++
        (takeEq (u0.dropWhile isSp)).2.takeWhile isSp ++
        (takeQu ((takeEq (u0.dropWhile isSp)).2.dropWhile isSp)).1 ++ redW ++
        (takeQu ((takeQu ((takeEq (u0.dropWhile isSp)).2.dropWhile isSp)).2.dropWhile isWd)).1,
        (takeQu ((takeQu ((takeEq (u0.dropWhile isSp)).2.dropWhile isSp)).2.dropWhile isWd)).2)
      else none) = some (pr1, rest) at h
  split at h
  next hany =>
    have hinj := Option.some.inj h
    cases hh : (takeQu ((takeEq (u0.dropWhile isSp)).2.dropWhile isSp)).2.head? with
    | none => rw [hh] at hany; cases hany
    | some c₀ =>
      rw [hh] at hany
      exact ⟨c₀, ⟨rfl, by simpa using hany⟩,
        (congrArg Prod.fst hinj).symm, (congrArg Prod.snd hinj).symm⟩
  next => cases h

theorem tailParse_length {u0 pr1 rest : List Char} (h : tailParse u0 = some (pr1, rest)) :
    rest.length ≤ u0.length := by
  obtain ⟨c₀, -, -, hrest⟩ := tailParse_inv h
  rw [hrest]
  calc (takeQu ((takeQu ((takeEq (u0.dropWhile isSp)).2.dropWhile isSp)).2.dropWhile isWd)).2.length
      ≤ ((takeQu ((takeEq (u0.dropWhile isSp)).2.dropWhile isSp)).2.dropWhile isWd).length :=
        takeQu_snd_length _
    _ ≤ (takeQu ((takeEq (u0.dropWhile isSp)).2.dropWhile isSp)).2.length :=
        (List.dropWhile_suffix isWd).length_le
    _ ≤ ((takeEq (u0.dropWhile isSp)).2.dropWhile isSp).length := takeQu_snd_length _
    _ ≤ (takeEq (u0.dropWhile isSp)).2.length := (List.dropWhile_suffix isSp).length_le
    _ ≤ (u0.dropWhile isSp).length := takeEq_snd_length _
    _ ≤ u0.length := (List.dropWhile_suffix isSp).length_le

theorem consuming_hm2 : Consuming hm2 := by
  intro c cs repl rest h
  obtain ⟨g1, u0, pr1, hf, ht, -⟩ := hm2_inv h
  have hlen := tailParse_length ht
  rcases flagSplit_inv hf with ⟨-, hl⟩ | ⟨-, hl⟩
  · have hlen2 := congrArg List.length hl
    have h2 : (tFlag : List Char).length = 2 := rfl
    rw [List.length_append, h2] at hlen2
    simp only [List.length_cons] at hlen2
    omega
  · have hlen2 := congrArg List.length hl
    have h2 : (tokenFlag : List Char).length = 7 := rfl
    rw [List.length_append, h2] at hlen2
    simp only [List.length_cons] at hlen2
    omega

theorem pass2_cons_some {c : Char} {cs repl rest : List Char}
    (h : hm2 (c :: cs) = some (repl, rest)) :
    pass2 (c :: cs) = repl ++ pass2 rest := by
  unfold pass2
  exact scan_cons_some hm2 consuming_hm2 h

theorem pass2_cons_none {c : Char} {cs : List Char} (h : hm2 (c :: cs) = none) :
    pass2 (c :: cs) = c :: pass2 cs := by
  unfold pass2
  exact scan_cons_none hm2 h

theorem hm2_nil : hm2 ([] : List Char) = none := rfl

theorem pass2_eq_some {l repl rest : List Char} (h : hm2 l = some (repl, rest)) :
    pass2 l = repl ++ pass2 rest := by
  cases l with
  | nil => rw [hm2_nil] at h; cases h
  | cons c cs => exact pass2_cons_some h

theorem hm2_repl_head {l repl rest : List Char} (h : hm2 l = some (repl, rest)) :
    repl.head? = some '-' := by
  obtain ⟨g1, u0, pr1, hf, -, hrepl⟩ := hm2_inv h
  rcases flagSplit_inv hf with ⟨hg, -⟩ | ⟨hg, -⟩ <;>
  · subst hg
    rw [hrepl]
    rfl

theorem hm2_some_head {l repl rest : List Char} (h : hm2 l = some (repl, rest)) :
    l.head? = some '-' := by
  obtain ⟨g1, u0, pr1, hf, -, -⟩ := hm2_inv h
  rcases flagSplit_inv hf with ⟨-, hl⟩ | ⟨-, hl⟩ <;>
  · rw [hl]
    rfl

theorem pass2_head? : ∀ l : List Char, (pass2 l).head? = l.head? := by
  intro l
  cases l with
  | nil => rfl
  | cons c cs =>
    cases hh : hm2 (c :: cs) with
    | none => rw [pass2_cons_none hh]; rfl
    | some pr =>
      obtain ⟨repl, rest⟩ := pr
      rw [pass2_cons_some hh]
      have hrh := hm2_repl_head hh
      have hlh := hm2_some_head hh
      cases repl with
      | nil => cases hrh
      | cons r rs =>
        simp only [List.cons_append, List.head?_cons] at hrh hlh ⊢
        rw [hrh, hlh]

theorem pass2_peel_append : ∀ (a : List Char), (∀ c ∈ a, ¬ c = '-') →
    ∀ {l v : List Char}, pass2 l = a ++ v → ∃ l', l = a ++ l' ∧ pass2 l' = v := by
  intro a
  induction a with
  | nil => intro _ l v h; exact ⟨l, rfl, h⟩
  | cons c a' ih =>
    intro ha l v h
    have hcD : ¬ c = '-' := ha c (by simp)
    cases l with
    | nil => rw [show pass2 ([] : List Char) = [] from rfl] at h; cases h
    | cons d ds =>
      cases hh : hm2 (d :: ds) with
      | some pr =>
        obtain ⟨repl, rest⟩ := pr
        rw [pass2_cons_some hh] at h
        have hrh := hm2_repl_head hh
        cases repl with
        | nil => cases hrh
        | cons r rs =>
          simp only [List.head?_cons] at hrh
          simp only [List.cons_append] at h
          have hrc : r = c := by injection h with h1 _
          rw [hrc] at hrh
          exact absurd (Option.some.inj hrh) hcD
      | none =>
        rw [pass2_cons_none hh] at h
        rw [List.cons_append] at h
        have hd : d = c := by injection h with h1 _
        have htail : pass2 ds = a' ++ v := by injection h with _ h2
        obtain ⟨l', hl', hp⟩ := ih (fun x hx => ha x (by simp [hx])) htail
        exact ⟨l', by rw [hd, hl']; rfl, hp⟩

/-! ### Interaction of `pass2` with the separator parsers -/

theorem tailParse_eq (u0 : List Char) : tailParse u0 =
    if (takeQu ((takeEq (u0.dropWhile isSp)).2.dropWhile isSp)).2.head?.any isWd = true then
      some (u0.takeWhile isSp ++ (takeEq (u0.dropWhile isSp)).1 ++
        (takeEq (u0.dropWhile isSp)).2.takeWhile isSp ++
        (takeQu ((takeEq (u0.dropWhile isSp)).2.dropWhile isSp)).1 ++ redW ++
        (takeQu ((takeQu ((takeEq (u0.dropWhile isSp)).2.dropWhile isSp)).2.dropWhile isWd)).1,
        (takeQu ((takeQu ((takeEq (u0.dropWhile isSp)).2.dropWhile isSp)).2.dropWhile isWd)).2)
    else none := rfl

theorem sp_ne_dash {c : Char} (h : isSp c = true) : ¬ c = '-' := by
  intro hc
  subst hc
  cases h

theorem qu_ne_dash {c : Char} (h : isQu c = true) : ¬ c = '-' := by
  intro hc
  subst hc
  cases h

theorem passthrough2 : ∀ (a : List Char), (∀ c ∈ a, ¬ c = '-') →
    ∀ (t : List Char), pass2 (a ++ t) = a ++ pass2 t := by
  intro a
  induction a with
  | nil => intro _ t; rfl
  | cons c a' ih =>
    intro ha t
    rw [List.cons_append, pass2_cons_none (hm2_none_of_head (ha c (by simp))),
      ih (fun x hx => ha x (by simp [hx])) t]
    rfl

theorem takeWhile_dropWhile_nil (p : Char → Bool) (u : List Char) :
    (u.dropWhile p).takeWhile p = [] := by
  cases hh : u.dropWhile p with
  | nil => rfl
  | cons c cs =>
    have hc : p c = false := by
      have hd := List.head?_dropWhile_not p u
      rw [hh] at hd
      simpa using hd
    rw [List.takeWhile_cons_of_neg (by simp [hc])]

theorem head?_append_left_some {a b : List Char} {c : Char} (h : a.head? = some c) :
    (a ++ b).head? = some c := by
  cases a with
  | nil => cases h
  | cons x xs => simpa using h

theorem dropWhileSp_pass2 (u : List Char) :
    (pass2 u).dropWhile isSp = pass2 (u.dropWhile isSp) := by
  conv_lhs => rw [← List.takeWhile_append_dropWhile isSp u]
  rw [passthrough2 (u.takeWhile isSp)
    (fun c hc => sp_ne_dash (List.mem_takeWhile_imp hc)) (u.dropWhile isSp)]
  rw [List.dropWhile_append_of_pos (fun c hc => List.mem_takeWhile_imp hc)]
  apply dropWhile_eq_self_of_head
  intro c hc
  rw [pass2_head? (u.dropWhile isSp)] at hc
  have hd := List.head?_dropWhile_not isSp u
  rw [hc] at hd
  simpa using hd

theorem takeEq_pass2 (v : List Char) :
    takeEq (pass2 v) = ((takeEq v).1, pass2 ((takeEq v).2)) := by
  rcases takeEq_inv v with ⟨h1, hv⟩ | ⟨h1, h2, hhead⟩
  · conv_lhs => rw [hv]
    rw [show pass2 ('=' :: (takeEq v).2) = '=' :: pass2 ((takeEq v).2) from
      pass2_cons_none (hm2_none_of_head (by decide))]
    rw [takeEq_eq, h1]
  · rw [h1, h2]
    cases hp : pass2 v with
    | nil => rw [takeEq_nil]
    | cons d ds =>
      have hd : v.head? = some d := by
        rw [← pass2_head? v, hp]
        rfl
      rw [takeEq_cons_ne (hhead d hd)]

theorem takeQu_pass2 (v : List Char) :
    takeQu (pass2 v) = ((takeQu v).1, pass2 ((takeQu v).2)) := by
  rcases takeQu_inv v with ⟨q, hq, h1, hv⟩ | ⟨h1, h2, hhead⟩
  · conv_lhs => rw [hv]
    rw [show pass2 (q :: (takeQu v).2) = q :: pass2 ((takeQu v).2) from
      pass2_cons_none (hm2_none_of_head (qu_ne_dash hq))]
    rw [takeQu_cons_qu hq, h1]
  · rw [h1, h2]
    cases hp : pass2 v with
    | nil => rw [takeQu_nil]
    | cons d ds =>
      have hd : v.head? = some d := by
        rw [← pass2_head? v, hp]
        rfl
      rw [takeQu_cons_ne (hhead d hd)]

theorem sepStrip_pass2 (u : List Char) :
    sepStrip (pass2 u) = pass2 (sepStrip u) := by
  unfold sepStrip
  rw [dropWhileSp_pass2, takeEq_pass2]
  rw [show ((takeEq (u.dropWhile isSp)).1, pass2 ((takeEq (u.dropWhile isSp)).2)).2 =
    pass2 ((takeEq (u.dropWhile isSp)).2) from rfl]
  rw [dropWhileSp_pass2, takeQu_pass2]

theorem tailParse_isSome_eq (u0 : List Char) :
    (tailParse u0).isSome = (sepStrip u0).head?.any isWd := by
  rw [tailParse_eq]
  by_cases h : (takeQu ((takeEq (u0.dropWhile isSp)).2.dropWhile isSp)).2.head?.any isWd = true
  · rw [if_pos h]
    exact h.symm
  · rw [if_neg h]
    have h' : (takeQu ((takeEq (u0.dropWhile isSp)).2.dropWhile isSp)).2.head?.any isWd = false :=
      Bool.eq_false_iff.mpr h
    exact h'.symm

theorem tailParse_isSome_pass2 (u : List Char) :
    (tailParse (pass2 u)).isSome = (tailParse u).isSome := by
  rw [tailParse_isSome_eq, tailParse_isSome_eq, sepStrip_pass2]
  cases hh : (sepStrip u).head? with
  | none =>
    rw [show (pass2 (sepStrip u)).head? = none from by rw [pass2_head?, hh]]
  | some c =>
    rw [show (pass2 (sepStrip u)).head? = some c from by rw [pass2_head?, hh]]

theorem tailParse_pr1_head {u0 pr1 rest : List Char} (h : tailParse u0 = some (pr1, rest)) :
    ∃ c, pr1.head? = some c ∧
      (isSp c = true ∨ c = '=' ∨ isQu c = true ∨ c = 'R') := by
  obtain ⟨c₀, -, hpr1, -⟩ := tailParse_inv h
  cases hws1 : (u0.takeWhile isSp) with
  | cons w ws =>
    refine ⟨w, ?_, Or.inl (List.mem_takeWhile_imp (by rw [hws1]; simp))⟩
    rw [hpr1, hws1]
    rfl
  | nil =>
    rw [hpr1, hws1, List.nil_append]
    rcases takeEq_inv (u0.dropWhile isSp) with ⟨h1, -⟩ | ⟨h1, h2, -⟩
    · refine ⟨'=', ?_, Or.inr (Or.inl rfl)⟩
      rw [h1]
      rfl
    · rw [h1, List.nil_append, h2, takeWhile_dropWhile_nil, List.nil_append]
      rcases takeQu_inv ((u0.dropWhile isSp).dropWhile isSp) with ⟨q, hq, h3, -⟩ | ⟨h3, -, -⟩
      · refine ⟨q, ?_, Or.inr (Or.inr (Or.inl hq))⟩
        rw [h3]
        rfl
      · rw [h3, List.nil_append]
        exact ⟨'R', rfl, Or.inr (Or.inr (Or.inr rfl))⟩

theorem hm2_tFlag (cs' : List Char) :
    hm2 (tFlag ++ cs') = (tailParse cs').map (fun pr => (tFlag ++ pr.1, pr.2)) := by
  unfold hm2
  rw [flagSplit_tFlag_append]

theorem hm2_tokenFlag (cs' : List Char) :
    hm2 (tokenFlag ++ cs') = (tailParse cs').map (fun pr => (tokenFlag ++ pr.1, pr.2)) := by
  unfold hm2
  rw [flagSplit_tokenFlag_append]

theorem hm2_none_step {c : Char} {cs : List Char} (h : hm2 (c :: cs) = none) :
    hm2 (c :: pass2 cs) = none := by
  cases hh : hm2 (c :: pass2 cs) with
  | none => rfl
  | some pr =>
    exfalso
    obtain ⟨repl, rest⟩ := pr
    obtain ⟨g1, u0', pr1, hf, ht, -⟩ := hm2_inv hh
    have htsome : (tailParse u0').isSome = true := by rw [ht]; rfl
    rcases flagSplit_inv hf with ⟨-, hl⟩ | ⟨-, hl⟩
    · -- outer flag `-t`: c :: pass2 cs = '-' :: 't' :: u0'
      rw [show tFlag ++ u0' = '-' :: 't' :: u0' from rfl] at hl
      have hc : c = '-' := by injection hl with h1 _
      have hcs : pass2 cs = 't' :: u0' := by injection hl with _ h2
      obtain ⟨cs', hcs', hp⟩ := pass2_peel_append ['t'] (by decide)
        (show pass2 cs = ['t'] ++ u0' from hcs)
      rw [← hp] at htsome
      rw [tailParse_isSome_pass2] at htsome
      obtain ⟨pr', hpr'⟩ := Option.isSome_iff_exists.mp htsome
      have hcontra : hm2 (c :: cs) = some (tFlag ++ pr'.1, pr'.2) := by
        rw [hc, hcs']
        have hshape : ('-' : Char) :: (['t'] ++ cs') = tFlag ++ cs' := rfl
        rw [hshape, hm2_tFlag, hpr']
        rfl
      rw [h] at hcontra
      cases hcontra
    · -- outer flag `--token`: c :: pass2 cs = '-' :: '-' :: 't' :: 'o' :: 'k' :: 'e' :: 'n' :: u0'
      rw [show tokenFlag ++ u0' = '-' :: '-' :: 't' :: 'o' :: 'k' :: 'e' :: 'n' :: u0'
        from rfl] at hl
      have hc : c = '-' := by injection hl with h1 _
      have hcs : pass2 cs = '-' :: 't' :: 'o' :: 'k' :: 'e' :: 'n' :: u0' := by
        injection hl with _ h2
      cases cs with
      | nil => rw [show pass2 ([] : List Char) = [] from rfl] at hcs; cases hcs
      | cons d ds =>
        cases hdm : hm2 (d :: ds) with
        | none =>
          rw [pass2_cons_none hdm] at hcs
          have hd : d = '-' := by injection hcs with h1 _
          have hds : pass2 ds = 't' :: 'o' :: 'k' :: 'e' :: 'n' :: u0' := by
            injection hcs with _ h2
          obtain ⟨ds5, hds5, hp5⟩ := pass2_peel_append ['t', 'o', 'k', 'e', 'n'] (by decide)
            (show pass2 ds = ['t', 'o', 'k', 'e', 'n'] ++ u0' from hds)
          rw [← hp5] at htsome
          rw [tailParse_isSome_pass2] at htsome
          obtain ⟨pr', hpr'⟩ := Option.isSome_iff_exists.mp htsome
          have hcontra : hm2 (c :: d :: ds) = some (tokenFlag ++ pr'.1, pr'.2) := by
            rw [hc, hd, hds5]
            have hshape : ('-' : Char) :: '-' :: (['t', 'o', 'k', 'e', 'n'] ++ ds5) =
                tokenFlag ++ ds5 := rfl
            rw [hshape, hm2_tokenFlag, hpr']
            rfl
          rw [h] at hcontra
          cases hcontra
        | some pr2 =>
          obtain ⟨repl2, rest2⟩ := pr2
          rw [pass2_cons_some hdm] at hcs
          obtain ⟨g1', u0'', pr1', hf', ht', hrepl'⟩ := hm2_inv hdm
          rcases flagSplit_inv hf' with ⟨hg', -⟩ | ⟨hg', -⟩
          · -- inner flag `-t`: repl2 starts '-' 't', so the third char of
            -- pass2 cs is the head of pr1', never 'o'.
            rw [hrepl', hg', List.append_assoc] at hcs
            rw [show tFlag ++ (pr1' ++ pass2 rest2) =
              '-' :: 't' :: (pr1' ++ pass2 rest2) from rfl] at hcs
            have h2 : ('t' : Char) :: (pr1' ++ pass2 rest2) =
                't' :: 'o' :: 'k' :: 'e' :: 'n' :: u0' := by
              injection hcs with _ h2
            have h3 : pr1' ++ pass2 rest2 = 'o' :: 'k' :: 'e' :: 'n' :: u0' := by
              injection h2 with _ h3
            obtain ⟨c₁, hc₁, hpred⟩ := tailParse_pr1_head ht'
            have hhead := head?_append_left_some (b := pass2 rest2) hc₁
            rw [h3] at hhead
            have hco : c₁ = 'o' := (Option.some.inj hhead).symm
            subst hco
            rcases hpred with hx | hx | hx | hx <;> exact absurd hx (by decide)
          · -- inner flag `--token`: repl2 starts '-' '-', but the second char
            -- of pass2 cs is 't'.
            rw [hrepl', hg', List.append_assoc] at hcs
            rw [show tokenFlag ++ (pr1' ++ pass2 rest2) =
              '-' :: '-' :: ('t' :: 'o' :: 'k' :: 'e' :: 'n' :: (pr1' ++ pass2 rest2))
              from rfl] at hcs
            have h2 : ('-' : Char) :: 't' :: 'o' :: 'k' :: 'e' :: 'n' ::
                (pr1' ++ pass2 rest2) = 't' :: 'o' :: 'k' :: 'e' :: 'n' :: u0' := by
              injection hcs with _ h2
            have h3 : ('-' : Char) = 't' := by injection h2 with h3 _
            exact absurd h3 (by decide)

/-! ### First-pass fixpoints and the second pass -/

theorem sp_ne_T {c : Char} (h : isSp c = true) : ¬ c = 'T' := by
  intro hc
  subst hc
  cases h

theorem qu_ne_T {c : Char} (h : isQu c = true) : ¬ c = 'T' := by
  rcases Bool.or_eq_true .. |>.mp h with h' | h' <;>
  · rw [of_decide_eq_true h']
    decide

theorem passthrough1_of_ne : ∀ (a : List Char), (∀ c ∈ a, ¬ c = 'T') →
    ∀ (t : List Char), pass1 (a ++ t) = a ++ pass1 t := by
  intro a
  induction a with
  | nil => intro _ t; rfl
  | cons c a' ih =>
    intro ha t
    rw [List.cons_append, pass1_cons_none (hm1_none_of_head (ha c (by simp))),
      ih (fun x hx => ha x (by simp [hx])) t]
    rfl

theorem hm1_TED (t : List Char) : hm1 ('T' :: 'E' :: 'D' :: t) = none := by
  unfold hm1
  rw [if_neg]
  rintro ⟨hEq, -⟩
  have hstep : ('T' :: 'E' :: 'D' :: t).take 6 = 'T' :: 'E' :: 'D' :: t.take 3 := rfl
  rw [hstep] at hEq
  have h2 : ('E' : Char) :: 'D' :: t.take 3 = 'o' :: 'k' :: 'e' :: 'n' :: [' '] := by
    injection hEq with _ h2
  have h3 : ('E' : Char) = 'o' := by injection h2 with h3 _
  exact absurd h3 (by decide)

theorem pass1_TED (t : List Char) :
    pass1 ('T' :: 'E' :: 'D' :: t) = 'T' :: 'E' :: 'D' :: pass1 t := by
  rw [pass1_cons_none (hm1_TED t),
    pass1_cons_none (hm1_none_of_head (by decide)),
    pass1_cons_none (hm1_none_of_head (by decide))]

theorem pass1_redW (t : List Char) : pass1 (redW ++ t) = redW ++ pass1 t := by
  have hshape : redW ++ t = ['R', 'E', 'D', 'A', 'C'] ++ ('T' :: 'E' :: 'D' :: t) := rfl
  rw [hshape, passthrough1_of_ne ['R', 'E', 'D', 'A', 'C'] (by decide), pass1_TED]
  rfl

theorem pass1_repl2 {l repl rest : List Char} (h : hm2 l = some (repl, rest)) :
    ∀ t, pass1 (repl ++ t) = repl ++ pass1 t := by
  intro t
  obtain ⟨g1, u0, pr1, hf, ht, hrepl⟩ := hm2_inv h
  obtain ⟨c₀, -, hpr1, -⟩ := tailParse_inv ht
  have hg1 : ∀ c ∈ g1, ¬ c = 'T' := by
    rcases flagSplit_inv hf with ⟨hg, -⟩ | ⟨hg, -⟩ <;>
    · subst hg
      decide
  have hws1 : ∀ c ∈ u0.takeWhile isSp, ¬ c = 'T' :=
    fun c hc => sp_ne_T (List.mem_takeWhile_imp hc)
  have he1 : ∀ c ∈ (takeEq (u0.dropWhile isSp)).1, ¬ c = 'T' := by
    rcases takeEq_inv (u0.dropWhile isSp) with ⟨h1, -⟩ | ⟨h1, -, -⟩ <;>
    · rw [h1]
      decide
  have hws2 : ∀ c ∈ (takeEq (u0.dropWhile isSp)).2.takeWhile isSp, ¬ c = 'T' :=
    fun c hc => sp_ne_T (List.mem_takeWhile_imp hc)
  have hq1 : ∀ c ∈ (takeQu ((takeEq (u0.dropWhile isSp)).2.dropWhile isSp)).1, ¬ c = 'T' := by
    rcases takeQu_inv ((takeEq (u0.dropWhile isSp)).2.dropWhile isSp) with
      ⟨q, hq, h1, -⟩ | ⟨h1, -, -⟩
    · rw [h1]
      intro c hc
      rw [List.mem_singleton.mp hc]
      exact qu_ne_T hq
    · rw [h1]
      intro c hc
      cases hc
  have hq2a : ∀ c ∈ (takeQu ((takeQu ((takeEq (u0.dropWhile isSp)).2.dropWhile
      isSp)).2.dropWhile isWd)).1, ¬ c = 'T' := by
    rcases takeQu_inv ((takeQu ((takeEq (u0.dropWhile isSp)).2.dropWhile isSp)).2.dropWhile
      isWd) with ⟨q, hq, h1, -⟩ | ⟨h1, -, -⟩
    · rw [h1]
      intro c hc
      rw [List.mem_singleton.mp hc]
      exact qu_ne_T hq
    · rw [h1]
      intro c hc
      cases hc
  rw [hrepl, hpr1]
  simp only [List.append_assoc]
  rw [passthrough1_of_ne _ hg1, passthrough1_of_ne _ hws1, passthrough1_of_ne _ he1,
    passthrough1_of_ne _ hws2, passthrough1_of_ne _ hq1, pass1_redW,
    passthrough1_of_ne _ hq2a]

theorem hm1_none_step2 {c : Char} {cs : List Char} (h : hm1 (c :: cs) = none) :
    hm1 (c :: pass2 cs) = none := by
  cases hh : hm1 (c :: pass2 cs) with
  | none => rfl
  | some r =>
    exfalso
    obtain ⟨htake, c₀, hc₀, hwd, -⟩ := hm1_inv hh
    have hstep : (c :: pass2 cs).take 6 = c :: (pass2 cs).take 5 := rfl
    rw [hstep] at htake
    have hcT : c = 'T' := by injection htake with h1 _
    have htake5 : (pass2 cs).take 5 = ['o', 'k', 'e', 'n', ' '] := by
      injection htake with _ h2
    have hsplit : pass2 cs = ['o', 'k', 'e', 'n', ' '] ++ (pass2 cs).drop 5 := by
      rw [← htake5]
      exact (List.take_append_drop 5 (pass2 cs)).symm
    obtain ⟨cs5, hcs, hp5⟩ := pass2_peel_append ['o', 'k', 'e', 'n', ' '] (by decide) hsplit
    have hdrop : (c :: pass2 cs).drop 6 = (pass2 cs).drop 5 := rfl
    rw [hdrop] at hc₀
    have hcs5head : cs5.head? = some c₀ := by
      rw [← pass2_head? cs5, hp5]
      exact hc₀
    have hcontra : hm1 (c :: cs) = some (cs5.dropWhile isWd) := by
      rw [hcT, hcs]
      have hshape : ('T' : Char) :: (['o', 'k', 'e', 'n', ' '] ++ cs5) = tok6 ++ cs5 := rfl
      rw [hshape]
      exact hm1_eq_some hcs5head hwd
    rw [h] at hcontra
    cases hcontra

theorem wd_prefix_unique : ∀ (a c : List Char) {b d : List Char},
    (∀ x ∈ a, isWd x = true) → (∀ x ∈ c, isWd x = true) →
    (∀ x, b.head? = some x → isWd x = false) →
    (∀ x, d.head? = some x → isWd x = false) →
    a ++ b = c ++ d → a = c ∧ b = d := by
  intro a
  induction a with
  | nil =>
    intro c b d _ hc hb hd heq
    cases c with
    | nil => exact ⟨rfl, heq⟩
    | cons y c' =>
      exfalso
      rw [List.nil_append, List.cons_append] at heq
      have hby : b.head? = some y := by rw [heq]; rfl
      have := hb y hby
      rw [hc y (by simp)] at this
      cases this
  | cons x a' ih =>
    intro c b d ha hc hb hd heq
    cases c with
    | nil =>
      exfalso
      rw [List.nil_append, List.cons_append] at heq
      have hdx : d.head? = some x := by rw [← heq]; rfl
      have := hd x hdx
      rw [ha x (by simp)] at this
      cases this
    | cons y c' =>
      rw [List.cons_append, List.cons_append] at heq
      have hxy : x = y := by injection heq with h1 _
      have htail : a' ++ b = c' ++ d := by injection heq with _ h2
      obtain ⟨h1, h2⟩ := ih c' (fun z hz => ha z (by simp [hz]))
        (fun z hz => hc z (by simp [hz])) hb hd htail
      exact ⟨by rw [hxy, h1], h2⟩

theorem fix1_decomp {l r : List Char} (hfix : pass1 l = l) (h : hm1 l = some r) :
    l = red1 ++ r ∧ pass1 r = r := by
  have heq : red1 ++ pass1 r = l := by
    rw [← pass1_eq_some h, hfix]
  obtain ⟨htake, c₀, hc₀, hwd₀, hr⟩ := hm1_inv h
  have hl : l = tok6 ++ l.drop 6 := by
    rw [← htake]
    exact (List.take_append_drop 6 l).symm
  have hu : l.drop 6 = (l.drop 6).takeWhile isWd ++ r := by
    rw [hr]
    exact (List.takeWhile_append_dropWhile isWd (l.drop 6)).symm
  rw [hl, hu] at heq
  have hassoc : red1 ++ pass1 r = tok6 ++ (redW ++ pass1 r) := by
    unfold red1
    rw [List.append_assoc]
  rw [hassoc] at heq
  have hcancel : redW ++ pass1 r = (l.drop 6).takeWhile isWd ++ r :=
    List.append_cancel_left heq
  have hmain := wd_prefix_unique redW ((l.drop 6).takeWhile isWd)
    redW_all_wd (fun x hx => List.mem_takeWhile_imp hx)
    (fun x hx => by
      rw [pass1_head? r] at hx
      exact hm1_rest_head h x hx)
    (fun x hx => hm1_rest_head h x hx) hcancel
  constructor
  · rw [hl, hu, ← hmain.1]
    unfold red1
    rw [List.append_assoc]
  · exact hmain.2

theorem pass1_red1_suffix (k : Nat) (hk : 1 ≤ k) (r : List Char) :
    pass1 (red1.drop k ++ r) = red1.drop k ++ pass1 r := by
  by_cases h14 : 14 ≤ k
  · rw [List.drop_eq_nil_of_le (by
      rw [show (red1 : List Char).length = 14 from rfl]
      omega)]
    rfl
  · have hk13 : k ≤ 13 := by omega
    interval_cases k
    · have hshape : red1.drop 1 ++ r = ['o', 'k', 'e', 'n', ' '] ++ (redW ++ r) := rfl
      rw [hshape, passthrough1_of_ne _ (by decide), pass1_redW]
      rfl
    · have hshape : red1.drop 2 ++ r = ['k', 'e', 'n', ' '] ++ (redW ++ r) := rfl
      rw [hshape, passthrough1_of_ne _ (by decide), pass1_redW]
      rfl
    · have hshape : red1.drop 3 ++ r = ['e', 'n', ' '] ++ (redW ++ r) := rfl
      rw [hshape, passthrough1_of_ne _ (by decide), pass1_redW]
      rfl
    · have hshape : red1.drop 4 ++ r = ['n', ' '] ++ (redW ++ r) := rfl
      rw [hshape, passthrough1_of_ne _ (by decide), pass1_redW]
      rfl
    · have hshape : red1.drop 5 ++ r = [' '] ++ (redW ++ r) := rfl
      rw [hshape, passthrough1_of_ne _ (by decide), pass1_redW]
      rfl
    · have hshape : red1.drop 6 ++ r = redW ++ r := rfl
      rw [hshape, pass1_redW]
      rfl
    · have hshape : red1.drop 7 ++ r = ['E', 'D', 'A', 'C'] ++ ('T' :: 'E' :: 'D' :: r) := rfl
      rw [hshape, passthrough1_of_ne _ (by decide), pass1_TED]
      rfl
    · have hshape : red1.drop 8 ++ r = ['D', 'A', 'C'] ++ ('T' :: 'E' :: 'D' :: r) := rfl
      rw [hshape, passthrough1_of_ne _ (by decide), pass1_TED]
      rfl
    · have hshape : red1.drop 9 ++ r = ['A', 'C'] ++ ('T' :: 'E' :: 'D' :: r) := rfl
      rw [hshape, passthrough1_of_ne _ (by decide), pass1_TED]
      rfl
    · have hshape : red1.drop 10 ++ r = ['C'] ++ ('T' :: 'E' :: 'D' :: r) := rfl
      rw [hshape, passthrough1_of_ne _ (by decide), pass1_TED]
      rfl
    · have hshape : red1.drop 11 ++ r = 'T' :: 'E' :: 'D' :: r := rfl
      rw [hshape, pass1_TED]
      rfl
    · have hshape : red1.drop 12 ++ r = ['E', 'D'] ++ r := rfl
      rw [hshape, passthrough1_of_ne _ (by decide)]
      rfl
    · have hshape : red1.drop 13 ++ r = ['D'] ++ r := rfl
      rw [hshape, passthrough1_of_ne _ (by decide)]
      rfl

theorem fix1_drop : ∀ (n : Nat) (l : List Char), l.length ≤ n → pass1 l = l →
    ∀ k, pass1 (l.drop k) = l.drop k := by
  intro n
  induction n with
  | zero =>
    intro l hlen _ k
    have hl : l = [] := List.eq_nil_of_length_eq_zero (Nat.le_zero.mp hlen)
    subst hl
    rw [List.drop_nil]
    rfl
  | succ n ih =>
    intro l hlen hfix k
    cases l with
    | nil =>
      rw [List.drop_nil]
      rfl
    | cons c cs =>
      cases k with
      | zero => exact hfix
      | succ j =>
        cases hh : hm1 (c :: cs) with
        | none =>
          have hfixcs : pass1 cs = cs := by
            have hx := hfix
            rw [pass1_cons_none hh] at hx
            injection hx
          rw [List.drop_succ_cons]
          exact ih cs (by simp only [List.length_cons] at hlen; omega) hfixcs j
        | some r =>
          obtain ⟨hl, hfixr⟩ := fix1_decomp hfix hh
          rw [hl, List.drop_append_eq_append_drop]
          have hrlen : r.length ≤ n := by
            have hx := congrArg List.length hl
            rw [List.length_append, show (red1 : List Char).length = 14 from rfl] at hx
            simp only [List.length_cons] at hx hlen
            omega
          rw [pass1_red1_suffix (j + 1) (by omega), ih r hrlen hfixr]

theorem fix1_suffix {l y : List Char} (hfix : pass1 l = l) (hs : ∃ p, p ++ y = l) :
    pass1 y = y := by
  obtain ⟨p, hp⟩ := hs
  have hy : y = l.drop p.length := by
    rw [← hp, List.drop_left]
  rw [hy]
  exact fix1_drop l.length l le_rfl hfix _

theorem tailParse_rest_suffix {u0 pr1 rest : List Char}
    (h : tailParse u0 = some (pr1, rest)) : ∃ p, p ++ rest = u0 := by
  obtain ⟨c₀, -, -, hrest⟩ := tailParse_inv h
  have s1 : rest <:+ (takeQu ((takeEq (u0.dropWhile isSp)).2.dropWhile isSp)).2.dropWhile
      isWd := by
    rcases takeQu_inv ((takeQu ((takeEq (u0.dropWhile isSp)).2.dropWhile isSp)).2.dropWhile
      isWd) with ⟨q, -, -, hu⟩ | ⟨-, h2, -⟩
    · rw [hrest]
      exact ⟨[q], hu.symm⟩
    · rw [hrest, h2]
  have s2 : (takeQu ((takeEq (u0.dropWhile isSp)).2.dropWhile isSp)).2.dropWhile isWd <:+
      (takeQu ((takeEq (u0.dropWhile isSp)).2.dropWhile isSp)).2 :=
    List.dropWhile_suffix isWd
  have s3 : (takeQu ((takeEq (u0.dropWhile isSp)).2.dropWhile isSp)).2 <:+
      (takeEq (u0.dropWhile isSp)).2.dropWhile isSp := by
    rcases takeQu_inv ((takeEq (u0.dropWhile isSp)).2.dropWhile isSp) with
      ⟨q, -, -, hu⟩ | ⟨-, h2, -⟩
    · exact ⟨[q], hu.symm⟩
    · rw [h2]
  have s4 : (takeEq (u0.dropWhile isSp)).2.dropWhile isSp <:+
      (takeEq (u0.dropWhile isSp)).2 :=
    List.dropWhile_suffix isSp
  have s5 : (takeEq (u0.dropWhile isSp)).2 <:+ u0.dropWhile isSp := by
    rcases takeEq_inv (u0.dropWhile isSp) with ⟨-, hu⟩ | ⟨-, h2, -⟩
    · exact ⟨['='], hu.symm⟩
    · rw [h2]
  have s6 : u0.dropWhile isSp <:+ u0 := List.dropWhile_suffix isSp
  exact ((((s1.trans s2).trans s3).trans s4).trans s5).trans s6

theorem hm2_rest_pre {l repl rest : List Char} (h : hm2 l = some (repl, rest)) :
    ∃ p, p ++ rest = l := by
  obtain ⟨g1, u0, pr1, hf, ht, -⟩ := hm2_inv h
  obtain ⟨p, hp⟩ := tailParse_rest_suffix ht
  rcases flagSplit_inv hf with ⟨-, hl⟩ | ⟨-, hl⟩
  · exact ⟨tFlag ++ p, by rw [hl, ← hp, List.append_assoc]⟩
  · exact ⟨tokenFlag ++ p, by rw [hl, ← hp, List.append_assoc]⟩

theorem red1_no_dash : ∀ c ∈ red1, ¬ c = '-' := by decide

theorem fix1_pass2_aux : ∀ (n : Nat) (l : List Char), l.length ≤ n → pass1 l = l →
    pass1 (pass2 l) = pass2 l := by
  intro n
  induction n with
  | zero =>
    intro l hlen _
    have hl : l = [] := List.eq_nil_of_length_eq_zero (Nat.le_zero.mp hlen)
    subst hl
    rfl
  | succ n ih =>
    intro l hlen hfix
    cases l with
    | nil => rfl
    | cons c cs =>
      cases hh2 : hm2 (c :: cs) with
      | some pr =>
        obtain ⟨repl, rest⟩ := pr
        rw [pass2_cons_some hh2, pass1_repl2 hh2]
        have hfixrest : pass1 rest = rest := fix1_suffix hfix (hm2_rest_pre hh2)
        have hrlen : rest.length ≤ n := by
          have := consuming_hm2 c cs repl rest hh2
          simp only [List.length_cons] at hlen
          omega
        rw [ih rest hrlen hfixrest]
      | none =>
        cases hh1 : hm1 (c :: cs) with
        | none =>
          have hfixcs : pass1 cs = cs := by
            have hx := hfix
            rw [pass1_cons_none hh1] at hx
            injection hx
          rw [pass2_cons_none hh2, pass1_cons_none (hm1_none_step2 hh1),
            ih cs (by simp only [List.length_cons] at hlen; omega) hfixcs]
        | some r =>
          obtain ⟨hl, hfixr⟩ := fix1_decomp hfix hh1
          rw [hl, passthrough2 red1 red1_no_dash r]
          have hred : hm1 (red1 ++ pass2 r) = some (pass2 r) := by
            apply hm1_red1_append
            intro c₀ hc₀
            rw [pass2_head? r] at hc₀
            exact hm1_rest_head hh1 c₀ hc₀
          rw [pass1_eq_some hred]
          have hrlen : r.length ≤ n := by
            have hx := congrArg List.length hl
            rw [List.length_append, show (red1 : List Char).length = 14 from rfl] at hx
            simp only [List.length_cons] at hx hlen
            omega
          rw [ih r hrlen hfixr]

theorem fix1_pass2 {l : List Char} (hfix : pass1 l = l) :
    pass1 (pass2 l) = pass2 l :=
  fix1_pass2_aux l.length l le_rfl hfix

/-! ### Re-matching a produced replacement -/

theorem takeWhile_eq_nil_of_head {p : Char → Bool} {t : List Char}
    (h : ∀ c, t.head? = some c → p c = false) : t.takeWhile p = [] := by
  cases t with
  | nil => rfl
  | cons c cs => exact List.takeWhile_cons_of_neg (by simp [h c rfl])

theorem takeQu_not {u : List Char} (h : ∀ c, u.head? = some c → isQu c = false) :
    takeQu u = ([], u) := by
  cases u with
  | nil => rfl
  | cons c cs => exact takeQu_cons_ne (h c rfl)

theorem takeEq_not {u : List Char} (h : ∀ c, u.head? = some c → ¬ c = '=') :
    takeEq u = ([], u) := by
  cases u with
  | nil => rfl
  | cons c cs => exact takeEq_cons_ne (h c rfl)

theorem qu_not_sp {c : Char} (h : isQu c = true) : isSp c = false := by
  rcases Bool.or_eq_true .. |>.mp h with h' | h' <;>
  · rw [of_decide_eq_true h']
    decide

theorem qu_ne_eq {c : Char} (h : isQu c = true) : ¬ c = '=' := by
  rcases Bool.or_eq_true .. |>.mp h with h' | h' <;>
  · rw [of_decide_eq_true h']
    decide

theorem qu_not_wd {c : Char} (h : isQu c = true) : isWd c = false := by
  rcases Bool.or_eq_true .. |>.mp h with h' | h' <;>
  · rw [of_decide_eq_true h']
    decide

theorem strip_sp_append {ws r : List Char} (hws : ∀ c ∈ ws, isSp c = true)
    (hr : ∀ c, r.head? = some c → isSp c = false) :
    (ws ++ r).takeWhile isSp = ws ∧ (ws ++ r).dropWhile isSp = r := by
  constructor
  · rw [List.takeWhile_append_of_pos hws, takeWhile_eq_nil_of_head hr, List.append_nil]
  · rw [List.dropWhile_append_of_pos hws, dropWhile_eq_self_of_head hr]

theorem tailParse_val_end (q2a t : List Char)
    (hq2a : (∃ q₂, isQu q₂ = true ∧ q2a = [q₂]) ∨
      (q2a = [] ∧ ∀ c, t.head? = some c → isWd c = false ∧ isQu c = false)) :
    (redW ++ (q2a ++ t)).head?.any isWd = true ∧
    (redW ++ (q2a ++ t)).dropWhile isWd = q2a ++ t ∧
    takeQu (q2a ++ t) = (q2a, t) := by
  refine ⟨rfl, ?_, ?_⟩
  · rw [List.dropWhile_append_of_pos redW_all_wd]
    rcases hq2a with ⟨q₂, hq₂, hq⟩ | ⟨hq, hhead⟩
    · rw [hq]
      exact List.dropWhile_cons_of_neg (by simp [qu_not_wd hq₂])
    · rw [hq, List.nil_append]
      exact dropWhile_eq_self_of_head (fun c hc => (hhead c hc).1)
  · rcases hq2a with ⟨q₂, hq₂, hq⟩ | ⟨hq, hhead⟩
    · rw [hq]
      exact takeQu_cons_qu hq₂
    · rw [hq, List.nil_append]
      exact takeQu_not (fun c hc => (hhead c hc).2)

theorem tailParse_build (ws1 e1 ws2 q1 q2a t : List Char)
    (hws1 : ∀ c ∈ ws1, isSp c = true)
    (he1 : e1 = ['='] ∨ (e1 = [] ∧ ws2 = []))
    (hws2 : ∀ c ∈ ws2, isSp c = true)
    (hq1 : (∃ q, isQu q = true ∧ q1 = [q]) ∨ q1 = [])
    (hq2a : (∃ q₂, isQu q₂ = true ∧ q2a = [q₂]) ∨
      (q2a = [] ∧ ∀ c, t.head? = some c → isWd c = false ∧ isQu c = false)) :
    tailParse (ws1 ++ e1 ++ ws2 ++ q1 ++ redW ++ q2a ++ t) =
      some (ws1 ++ e1 ++ ws2 ++ q1 ++ redW ++ q2a, t) := by
  obtain ⟨hvAny, hvDrop, hvQu⟩ := tailParse_val_end q2a t hq2a
  have hDhead : ∀ c, (q1 ++ (redW ++ (q2a ++ t))).head? = some c →
      isSp c = false ∧ ¬ c = '=' := by
    intro c hc
    rcases hq1 with ⟨q, hq, h1⟩ | h1
    · rw [h1] at hc
      have hcq : c = q := by
        rw [show ((([q] : List Char) ++ (redW ++ (q2a ++ t))).head? = some q) from rfl] at hc
        exact (Option.some.inj hc).symm
      subst hcq
      exact ⟨qu_not_sp hq, qu_ne_eq hq⟩
    · rw [h1, List.nil_append] at hc
      have hcR : c = 'R' := by
        rw [show ((redW ++ (q2a ++ t)).head? = some 'R') from rfl] at hc
        exact (Option.some.inj hc).symm
      subst hcR
      exact ⟨by decide, by decide⟩
  have hqu : takeQu (q1 ++ (redW ++ (q2a ++ t))) = (q1, redW ++ (q2a ++ t)) := by
    rcases hq1 with ⟨q, hq, h1⟩ | h1
    · rw [h1]
      exact takeQu_cons_qu hq
    · rw [h1, List.nil_append]
      exact takeQu_not (fun c hc => by
        have hcR : c = 'R' := Option.some.inj (by rw [← hc]; rfl)
        subst hcR
        decide)
  simp only [List.append_assoc]
  rw [tailParse_eq]
  rcases he1 with he | ⟨he, hw2⟩
  · subst he
    have hB : ∀ c, ((['='] : List Char) ++ (ws2 ++ (q1 ++ (redW ++ (q2a ++ t))))).head? =
        some c → isSp c = false := by
      intro c hc
      have hce : c = '=' := (Option.some.inj hc).symm
      subst hce
      decide
    obtain ⟨hT1, hD1⟩ := strip_sp_append hws1 hB
    rw [hD1, hT1]
    rw [show takeEq (['='] ++ (ws2 ++ (q1 ++ (redW ++ (q2a ++ t))))) =
      (['='], ws2 ++ (q1 ++ (redW ++ (q2a ++ t)))) from rfl]
    dsimp only
    obtain ⟨hT2, hD2⟩ := strip_sp_append hws2 (fun c hc => (hDhead c hc).1)
    rw [hD2, hT2, hqu]
    dsimp only
    rw [if_pos hvAny, hvDrop, hvQu]
    dsimp only
    simp only [List.append_assoc]
  · subst he
    subst hw2
    simp only [List.nil_append]
    obtain ⟨hT1, hD1⟩ := strip_sp_append hws1 (fun c hc => (hDhead c hc).1)
    rw [hD1, hT1]
    rw [takeEq_not (fun c hc => (hDhead c hc).2)]
    dsimp only
    rw [takeWhile_eq_nil_of_head (fun c hc => (hDhead c hc).1),
      dropWhile_eq_self_of_head (fun c hc => (hDhead c hc).1), hqu]
    dsimp only
    rw [if_pos hvAny, hvDrop, hvQu]
    dsimp only
    simp only [List.nil_append, List.append_assoc]

theorem tailParse_rematch {u0 pr1 rest : List Char} (h : tailParse u0 = some (pr1, rest))
    {t : List Char} (hthead : t.head? = rest.head?) :
    tailParse (pr1 ++ t) = some (pr1, t) := by
  obtain ⟨c₀, ⟨hc₀, hwd₀⟩, hpr1, hrest⟩ := tailParse_inv h
  rw [hpr1]
  apply tailParse_build
  · exact fun c hc => List.mem_takeWhile_imp hc
  · rcases takeEq_inv (u0.dropWhile isSp) with ⟨h1, -⟩ | ⟨h1, h2, -⟩
    · exact Or.inl h1
    · refine Or.inr ⟨h1, ?_⟩
      rw [h2]
      exact takeWhile_dropWhile_nil isSp u0
  · exact fun c hc => List.mem_takeWhile_imp hc
  · rcases takeQu_inv ((takeEq (u0.dropWhile isSp)).2.dropWhile isSp) with
      ⟨q, hq, h1, -⟩ | ⟨h1, -, -⟩
    · exact Or.inl ⟨q, hq, h1⟩
    · exact Or.inr h1
  · rcases takeQu_inv ((takeQu ((takeEq (u0.dropWhile isSp)).2.dropWhile isSp)).2.dropWhile
      isWd) with ⟨q₂, hq₂, h1, -⟩ | ⟨h1, h2, hq⟩
    · exact Or.inl ⟨q₂, hq₂, h1⟩
    · refine Or.inr ⟨h1, ?_⟩
      intro c hc
      rw [hthead, hrest, h2] at hc
      constructor
      · have hd := List.head?_dropWhile_not isWd
          ((takeQu ((takeEq (u0.dropWhile isSp)).2.dropWhile isSp)).2)
        rw [hc] at hd
        simpa using hd
      · exact hq c hc

theorem hm2_rematch {l repl rest : List Char} (h : hm2 l = some (repl, rest))
    {t : List Char} (hthead : t.head? = rest.head?) :
    hm2 (repl ++ t) = some (repl, t) := by
  obtain ⟨g1, u0, pr1, hf, ht, hrepl⟩ := hm2_inv h
  have htp : tailParse (pr1 ++ t) = some (pr1, t) := tailParse_rematch ht hthead
  subst hrepl
  rcases flagSplit_inv hf with ⟨hg, -⟩ | ⟨hg, -⟩
  · subst hg
    rw [List.append_assoc, hm2_tFlag, htp]
    rfl
  · subst hg
    rw [List.append_assoc, hm2_tokenFlag, htp]
    rfl

/-! ### Second-pass idempotence -/

theorem pass2_idem_aux : ∀ (n : Nat) (l : List Char), l.length ≤ n →
    pass2 (pass2 l) = pass2 l := by
  intro n
  induction n with
  | zero =>
    intro l h
    have hl : l = [] := List.eq_nil_of_length_eq_zero (Nat.le_zero.mp h)
    subst hl
    rfl
  | succ n ih =>
    intro l h
    cases l with
    | nil => rfl
    | cons c cs =>
      cases hh : hm2 (c :: cs) with
      | none =>
        rw [pass2_cons_none hh, pass2_cons_none (hm2_none_step hh),
          ih cs (by simp at h; omega)]
      | some pr =>
        obtain ⟨repl, rest⟩ := pr
        rw [pass2_cons_some hh]
        have hre : hm2 (repl ++ pass2 rest) = some (repl, pass2 rest) :=
          hm2_rematch hh (pass2_head? rest)
        rw [pass2_eq_some hre]
        have hlen := consuming_hm2 c cs repl rest hh
        rw [ih rest (by simp only [List.length_cons] at h; omega)]

theorem pass2_idem (l : List Char) : pass2 (pass2 l) = pass2 l :=
  pass2_idem_aux l.length l le_rfl

/-! ### The reference redactor coincides with the implementation (amended) -/

theorem take6_iff (l : List Char) :
    l.take 6 = tok6 ↔ (l.take 5 = tok5 ∧ (l.drop 5).take 1 = [' ']) := by
  constructor
  · intro h
    rw [show (6 : Nat) = 5 + 1 from rfl, List.take_add] at h
    rw [show (tok6 : List Char) = tok5 ++ [' '] from rfl] at h
    have hlen : (l.take 5).length = (tok5 : List Char).length := by
      have h1 := congrArg List.length h
      rw [List.length_append, List.length_append] at h1
      have h2 : (l.take 5).length ≤ 5 := by
        rw [List.length_take]
        omega
      have h3 : ((l.drop 5).take 1).length ≤ 1 := by
        rw [List.length_take]
        omega
      rw [show ((tok5 : List Char)).length = 5 from rfl,
        show (([' '] : List Char)).length = 1 from rfl] at h1
      rw [show ((tok5 : List Char)).length = 5 from rfl]
      omega
    exact List.append_inj h hlen
  · rintro ⟨h1, h2⟩
    rw [show (6 : Nat) = 5 + 1 from rfl, List.take_add, h1, h2]
    rfl

theorem m1_eq_specTokenSp (l : List Char) : m1 l = specTokenSp l := by
  unfold m1 hm1 specTokenSp
  rw [List.drop_drop, show (1 + 5 : Nat) = 6 from rfl]
  by_cases hc : l.take 6 = tok6 ∧ (l.drop 6).head?.any isWd = true
  · rw [if_pos hc, if_pos ⟨((take6_iff l).mp hc.1).1, ((take6_iff l).mp hc.1).2, hc.2⟩]
    rfl
  · rw [if_neg hc, if_neg]
    · rfl
    · rintro ⟨h1, h2, h3⟩
      exact hc ⟨(take6_iff l).mpr ⟨h1, h2⟩, h3⟩

theorem flagSplit_eq_spec (l : List Char) : flagSplit l = flagSplitSpec l := by
  unfold flagSplit flagSplitSpec
  by_cases h2 : l.take 2 = tFlag
  · rw [if_pos h2, if_neg, if_pos h2]
    intro h7
    have hmin : (l.take 7).take 2 = l.take 2 := by
      rw [List.take_take]
      norm_num
    have hx : l.take 2 = ['-', '-'] := by
      rw [← hmin, h7]
      rfl
    exact absurd (h2.symm.trans hx) (by decide)
  · rw [if_neg h2]
    by_cases h7 : l.take 7 = tokenFlag
    · rw [if_pos h7, if_pos h7]
    · rw [if_neg h7, if_neg h7, if_neg h2]

theorem takeWhile_isEmpty_eq (p : Char → Bool) (u : List Char) :
    (u.takeWhile p).isEmpty = !(u.head?.any p) := by
  cases u with
  | nil => rfl
  | cons c cs =>
    cases hp : p c with
    | true =>
      rw [List.takeWhile_cons_of_pos hp]
      simp [hp]
    | false =>
      rw [List.takeWhile_cons_of_neg (by simp [hp])]
      simp [hp]

theorem specFlagTail_eq (u0 : List Char) : specFlagTail u0 =
    if ((takeQu ((takeEq (u0.dropWhile isSp)).2.dropWhile isSp)).2.takeWhile isWd).isEmpty
    then none
    else some (u0.takeWhile isSp ++ (takeEq (u0.dropWhile isSp)).1 ++
        (takeEq (u0.dropWhile isSp)).2.takeWhile isSp ++
        ((takeQu ((takeEq (u0.dropWhile isSp)).2.dropWhile isSp)).1 ++
          (redW ++ (takeQu ((takeQu ((takeEq (u0.dropWhile isSp)).2.dropWhile
            isSp)).2.dropWhile isWd)).1)),
        (takeQu ((takeQu ((takeEq (u0.dropWhile isSp)).2.dropWhile isSp)).2.dropWhile
          isWd)).2) := rfl

theorem tailParse_eq_specFlagTail (u0 : List Char) : tailParse u0 = specFlagTail u0 := by
  rw [tailParse_eq, specFlagTail_eq, takeWhile_isEmpty_eq]
  cases hc : (takeQu ((takeEq (u0.dropWhile isSp)).2.dropWhile isSp)).2.head?.any isWd with
  | true => simp [List.append_assoc]
  | false => simp

theorem hm2_eq_specFlag (l : List Char) : hm2 l = specFlag l := by
  unfold hm2 specFlag
  rw [flagSplit_eq_spec]
  cases hf : flagSplitSpec l with
  | none => rfl
  | some pr =>
    obtain ⟨g1, u0⟩ := pr
    change (tailParse u0).map (fun pr => (g1 ++ pr.1, pr.2)) =
      (specFlagTail u0).map (fun pr => (g1 ++ pr.1, pr.2))
    rw [tailParse_eq_specFlagTail]

/-- C5 (counterexample): `FilterToken` does not equal the two-pass
reference as worded: the regex requires a single literal space after
`Token`, so a tab is not matched while the whitespace-based reference
redacts it. -/
theorem C5_redaction_spec_cex : FilterToken "Token\ta" ≠ FilterTokenSpec "Token\ta" := by
  decide

/-- C5 (amended): the redaction function equals, on every input string, the
two-pass reference in which the first pass requires the literal `Token`
followed by a single space character and a token-shaped value, and the
second pass is the flag pass exactly as the claim words it. -/
theorem C5_redaction_spec : ∀ s : String, FilterToken s = FilterTokenSpecAmended s := by
  intro s
  unfold FilterToken FilterTokenSpecAmended pass1 pass2
  rw [scan_congr m1 specTokenSp m1_eq_specTokenSp s.data,
    scan_congr hm2 specFlag hm2_eq_specFlag (scan specTokenSp s.data)]

/-- C6: the redaction function is idempotent: applying it twice yields the
same string as applying it once, for every input string. -/
theorem C6_redaction_idempotent :
    ∀ s : String, FilterToken (FilterToken s) = FilterToken s := by
  intro s
  unfold FilterToken
  rw [show (String.mk (pass2 (pass1 s.data))).data = pass2 (pass1 s.data) from rfl]
  rw [fix1_pass2 (pass1_idem s.data), pass2_idem]

end Fastly
